import Mathlib

/-!
Shallow embedding of `core/utils/historied-data/src/linear.rs`:
a transactional, linear version history.  The layer stack (`States`)
is a list of `TransactionState` plus a committed boundary; every key
owns a `History` — an ordered list of `(value, layer-index)` entries.
Lists model the Rust vectors with the head as position 0; all Rust
index loops are modelled by structural recursion on the running index.
Out-of-range layer lookups (a contract violation that panics in Rust)
are modelled by a `Dropped` default and all theorems carry the
corresponding in-range hypotheses.
-/

/-- State of a transactional layer (enum `TransactionState`). -/
inductive TransactionState where
  /-- Data is under change and can still be dropped. -/
  | Pending : TransactionState
  /-- Same as pending but does count as a transaction start. -/
  | TxPending : TransactionState
  /-- Data pointing to this indexed historic state should not be
  returned and can be removed. -/
  | Dropped : TransactionState
deriving DecidableEq, Repr

/-- An entry at a given history height (struct `HistoriedValue`). -/
structure HistoriedValue (V : Type) where
  /-- The stored value. -/
  value : V
  /-- The moment in history when the value got set. -/
  index : Nat
deriving DecidableEq, Repr

/-- Per-key ordered sequence of versioned entries (struct `History`,
a small-buffer vector; position 0 is the oldest entry). -/
abbrev History (V : Type) := List (HistoriedValue V)

/-- The shared layer stack: the layer state list and the committed
boundary (struct `States`). -/
structure States where
  layers : List TransactionState
  committed : Nat
deriving DecidableEq, Repr

/-- Layer state lookup `states[i]`.  In Rust an out-of-range index
panics (contract violation); here it yields `Dropped` and every
theorem that depends on the lookup carries an in-range hypothesis. -/
def stateAt (l : List TransactionState) (i : Nat) : TransactionState :=
  l.getD i TransactionState.Dropped

/-- `States::default()`: one `Pending` layer, nothing committed. -/
def States.start : States :=
  ⟨[TransactionState.Pending], 0⟩

/-- `States::start_transaction`: append a `TxPending` layer. -/
def States.start_transaction (s : States) : States :=
  ⟨s.layers ++ [TransactionState.TxPending], s.committed⟩

/-- `States::commit_prospective`: move the committed boundary to the
stack length, then append a fresh `Pending` layer. -/
def States.commit_prospective (s : States) : States :=
  ⟨s.layers ++ [TransactionState.Pending], s.layers.length⟩

/-- `States::discard_prospective`: flip every layer in
`[committed, len)` to `Dropped`, then append a fresh `Pending`. -/
def States.discard_prospective (s : States) : States :=
  ⟨(s.layers.mapIdx fun i st =>
      if s.committed ≤ i then TransactionState.Dropped else st)
    ++ [TransactionState.Pending], s.committed⟩

/-- `States::unchecked_rollback_committed`: reset the committed
boundary, then discard prospective changes. -/
def States.unchecked_rollback_committed (s : States) (old : Nat) : States :=
  States.discard_prospective ⟨s.layers, old⟩

/-- The downward scan of `States::discard_transaction`: running index
counts down from the stack length, stopping at the committed boundary;
`Pending` layers are flipped to `Dropped`, the first `TxPending` is
flipped and ends the scan. -/
def discardTxLoop (c : Nat) (l : List TransactionState) : Nat → List TransactionState
  | 0 => l
  | i + 1 =>
    if c < i + 1 then
      match stateAt l i with
      | TransactionState.Dropped => discardTxLoop c l i
      | TransactionState.Pending =>
          discardTxLoop c (l.set i TransactionState.Dropped) i
      | TransactionState.TxPending => l.set i TransactionState.Dropped
    else l

/-- `States::discard_transaction`. -/
def States.discard_transaction (s : States) : States :=
  ⟨discardTxLoop s.committed s.layers s.layers.length
      ++ [TransactionState.Pending], s.committed⟩

/-- The downward scan of `States::commit_transaction`: `Pending` and
`Dropped` layers are left untouched; the first `TxPending` is flipped
to `Pending` and ends the scan. -/
def commitTxLoop (c : Nat) (l : List TransactionState) : Nat → List TransactionState
  | 0 => l
  | i + 1 =>
    if c < i + 1 then
      match stateAt l i with
      | TransactionState.TxPending => l.set i TransactionState.Pending
      | _ => commitTxLoop c l i
    else l

/-- `States::commit_transaction`. -/
def States.commit_transaction (s : States) : States :=
  ⟨commitTxLoop s.committed s.layers s.layers.length
      ++ [TransactionState.Pending], s.committed⟩

/-- The scan of `find_previous_tx_start`: indices from `i - 1` down to
the committed boundary `c`; the first `TxPending` index is returned,
`c` if none is found. -/
def findPrevTxGo (l : List TransactionState) (c : Nat) : Nat → Nat
  | 0 => c
  | i + 1 =>
    if c ≤ i then
      if stateAt l i = TransactionState.TxPending then i else findPrevTxGo l c i
    else c

/-- `find_previous_tx_start(states, from)` (the scope resolver). -/
def find_previous_tx_start (s : List TransactionState × Nat) (start : Nat) : Nat :=
  findPrevTxGo s.1 s.2 start

/-- The downward scan of `History::get`: skip entries whose layer is
`Dropped`, return the first other value. -/
def getLoop (h : History V) (l : List TransactionState) : Nat → Option V
  | 0 => none
  | i + 1 =>
    match h.get? i with
    | none => none
    | some e =>
      match stateAt l e.index with
      | TransactionState.Dropped => getLoop h l i
      | _ => some e.value

/-- `History::get`: latest pending (non dropped) value. -/
def History.get (h : History V) (l : List TransactionState) : Option V :=
  getLoop h l h.length

/-- The downward scan of `History::into_pending`: at the first live
entry the buffer is truncated above it and the value popped out.  The
second component is the final state of the consumed buffer. -/
def intoPendingLoop (h : History V) (l : List TransactionState) :
    Nat → Option V × History V
  | 0 => (none, h)
  | i + 1 =>
    match h.get? i with
    | none => (none, h)
    | some e =>
      match stateAt l e.index with
      | TransactionState.Dropped => intoPendingLoop h l i
      | _ => (some e.value, h.take i)

/-- `History::into_pending`. -/
def History.into_pending (h : History V) (l : List TransactionState) :
    Option V × History V :=
  intoPendingLoop h l h.length

/-- The downward scan of `History::into_committed`: an entry only
qualifies when its layer index is strictly below `committed`. -/
def intoCommittedLoop (h : History V) (l : List TransactionState) (c : Nat) :
    Nat → Option V × History V
  | 0 => (none, h)
  | i + 1 =>
    match h.get? i with
    | none => (none, h)
    | some e =>
      if e.index < c then
        match stateAt l e.index with
        | TransactionState.Dropped => intoCommittedLoop h l c i
        | _ => (some e.value, h.take i)
      else intoCommittedLoop h l c i

/-- `History::into_committed`. -/
def History.into_committed (h : History V) (l : List TransactionState)
    (c : Nat) : Option V × History V :=
  intoCommittedLoop h l c h.length

/-- `state_index >= previous_transaction` where `previous_transaction`
starts as `usize::max_value()`:  `none` models the initial "infinite"
value (a real layer index never reaches `usize::MAX`). -/
def geInf (n : Nat) : Option Nat → Bool
  | none => false
  | some p => p ≤ n

/-- The downward scan of `History::get_mut`.  Accumulators mirror the
Rust locals: `result`, `previous_transaction` (`ptx`), and
`previous_switch` (`psw`), each holding `(array position, layer index)`
pairs.  The value returned is the final `(result, previous_switch)`. -/
def getMutLoop (h : History V) (s : List TransactionState × Nat) :
    Nat → Option (Nat × Nat) → Option Nat → Option (Nat × Nat) →
    Option (Nat × Nat) × Option (Nat × Nat)
  | 0, result, _, psw => (result, psw)
  | i + 1, result, ptx, psw =>
    match h.get? i with
    | none => (result, psw)
    | some e =>
      match stateAt s.1 e.index with
      | TransactionState.TxPending =>
        if geInf e.index ptx then (result, some (i, e.index))
        else if result.isNone then (some (i, e.index), psw)
        else (result, psw)
      | TransactionState.Pending =>
        if geInf e.index ptx then
          getMutLoop h s i result ptx (some (i, e.index))
        else if result.isNone then
          getMutLoop h s i (some (i, e.index))
            (some (find_previous_tx_start s e.index)) psw
        else (result, psw)
      | TransactionState.Dropped => getMutLoop h s i result ptx psw

/-- `History::get_mut`: returns the handle `(array position, layer
index)` of the live entry (the Rust `HistoriedValue<&mut V>` is the
entry at that position of the returned buffer) together with the
compacted buffer. -/
def History.get_mut (h : History V) (s : List TransactionState × Nat) :
    Option (Nat × Nat) × History V :=
  if h.length = 0 then (none, h)
  else
    match getMutLoop h s h.length none none none with
    | (none, _) => (none, [])
    | (some (ri, rsi), psw) =>
      let h1 := if ri + 1 < h.length then h.take (ri + 1) else h
      match psw with
      | none => (some (ri, rsi), h1)
      | some (si, ssi) =>
        match h1.getLast? with
        | none => (some (si, ssi), h1)
        | some v =>
            (some (si, ssi), h1.dropLast.take si ++ [⟨v.value, ssi⟩])

/-- The value behind the handle returned by `History::get_mut`: the
entry of the compacted buffer at the handle's array position. -/
def getMutValue (h : History V) (s : List TransactionState × Nat) : Option V :=
  match History.get_mut h s with
  | (some (pos, _), h1) => (h1.get? pos).map (fun e => e.value)
  | (none, _) => none

/-- The downward scan of `History::get_mut_pruning`, with the extra
`prune_index` accumulator and the `prune_to_commit` flag.  Returns the
final `(result, previous_switch, prune_index)`. -/
def getMutPruningLoop (h : History V) (s : List TransactionState × Nat)
    (prune : Bool) :
    Nat → Option (Nat × Nat) → Option Nat → Option (Nat × Nat) → Nat →
    Option (Nat × Nat) × Option (Nat × Nat) × Nat
  | 0, result, _, psw, pidx => (result, psw, pidx)
  | i + 1, result, ptx, psw, pidx =>
    match h.get? i with
    | none => (result, psw, pidx)
    | some e =>
      match stateAt s.1 e.index with
      | TransactionState.TxPending =>
        let pidx1 := if e.index < s.2 ∧ pidx < i then i else pidx
        let rp :=
          if geInf e.index ptx then (result, some (i, e.index))
          else if result.isNone then (some (i, e.index), psw)
          else (result, psw)
        if prune then
          if e.index < s.2 then (rp.1, rp.2, pidx1)
          else getMutPruningLoop h s prune i rp.1 ptx rp.2 pidx1
        else (rp.1, rp.2, pidx1)
      | TransactionState.Pending =>
        let pidx1 := if e.index < s.2 ∧ pidx < i then i else pidx
        if geInf e.index ptx then
          getMutPruningLoop h s prune i result ptx (some (i, e.index)) pidx1
        else if result.isNone then
          getMutPruningLoop h s prune i (some (i, e.index))
            (some (find_previous_tx_start s e.index)) psw pidx1
        else if prune then
          if e.index < s.2 then (result, psw, pidx1)
          else getMutPruningLoop h s prune i result ptx psw pidx1
        else (result, psw, pidx1)
      | TransactionState.Dropped => getMutPruningLoop h s prune i result ptx psw pidx

/-- `History::get_mut_pruning`: like `get_mut`, but when
`prune_to_commit` is set, every entry strictly before the newest
committed live entry is physically removed (`truncate_until`). -/
def History.get_mut_pruning (h : History V) (s : List TransactionState × Nat)
    (prune : Bool) : Option (Nat × Nat) × History V :=
  if h.length = 0 then (none, h)
  else
    match getMutPruningLoop h s prune h.length none none none 0 with
    | (result, psw, pidx) =>
      let doPrune := prune ∧ 0 < pidx ∧ result.isSome
      let deleted := if doPrune then pidx else 0
      let h0 := if doPrune then h.drop pidx else h
      match result with
      | none => (none, [])
      | some (ri, rsi) =>
        let h1 := if ri + 1 - deleted < h0.length
          then h0.take (ri + 1 - deleted) else h0
        match psw with
        | none => (some (ri - deleted, rsi), h1)
        | some (si, ssi) =>
          match h1.getLast? with
          | none => (some (si - deleted, ssi), h1)
          | some v =>
              (some (si - deleted, ssi),
                h1.dropLast.take (si - deleted) ++ [⟨v.value, ssi⟩])

/-- Overwrite the value stored at an array position, keeping the
recorded layer index (`*v.value = value` through the handle). -/
def setValueAt : History V → Nat → V → History V
  | [], _, _ => []
  | e :: rest, 0, v => ⟨v, e.index⟩ :: rest
  | e :: rest, n + 1, v => e :: setValueAt rest n v

/-- `History::set`: compact through `get_mut`; when the handle's layer
index equals the current top layer, overwrite in place, otherwise
append a new entry tagged with the top layer. -/
def History.set (h : History V) (s : List TransactionState × Nat) (v : V) :
    History V :=
  match History.get_mut h s with
  | (some (pos, sidx), h1) =>
    if sidx = s.1.length - 1 then setValueAt h1 pos v
    else h1 ++ [⟨v, s.1.length - 1⟩]
  | (none, h1) => h1 ++ [⟨v, s.1.length - 1⟩]

/-! ### Derived notions used to state the claims -/

/-- Position of the newest entry below position `n` whose layer is not
`Dropped` — the entry every read path is specified to return. -/
def firstLiveBelow (h : History V) (l : List TransactionState) : Nat → Option Nat
  | 0 => none
  | i + 1 =>
    match h.get? i with
    | none => none
    | some e =>
      if stateAt l e.index = TransactionState.Dropped then firstLiveBelow h l i
      else some i

/-- The greatest index in `[c, n)` whose layer state is `TxPending`,
if any: the layer the transaction-closing scans stop at. -/
def greatestTxBelow (l : List TransactionState) (c n : Nat) : Option Nat :=
  ((List.range n).filter
    (fun i => decide (c ≤ i ∧ stateAt l i = TransactionState.TxPending))).getLast?

/-- Layer state of index `k` after a `discard_transaction`, transcribed
from the specification: every `Pending` layer above the stopping
`TxPending` is flipped to `Dropped`, `Dropped` layers stay, the
stopping `TxPending` itself is flipped, layers below it are untouched;
with no `TxPending` at or above `committed`, everything from
`committed` up is dropped. -/
def discardTxDescribed (l : List TransactionState) (c k : Nat) : TransactionState :=
  match greatestTxBelow l c l.length with
  | some j =>
    if j < k then
      (if stateAt l k = TransactionState.Pending then TransactionState.Dropped
       else stateAt l k)
    else if k = j then TransactionState.Dropped
    else stateAt l k
  | none => if c ≤ k then TransactionState.Dropped else stateAt l k

/-- The transaction scope an entry layer belongs to: the layer itself
when it is a `TxPending` anchor, otherwise the nearest enclosing
`TxPending` boundary computed by the scope resolver. -/
def scopeOf (s : List TransactionState × Nat) (i : Nat) : Nat :=
  if stateAt s.1 i = TransactionState.TxPending then i
  else find_previous_tx_start s i

/-- At most one live entry lies within any single currently-open
transaction scope (a scope is open when its anchor layer is still
`TxPending`). -/
def atMostOnePerScope (s : List TransactionState × Nat) (h : History V) : Prop :=
  ∀ q, q < h.length → ∀ p, p < q → ∀ ep eq2,
    h.get? p = some ep → h.get? q = some eq2 →
    stateAt s.1 ep.index ≠ TransactionState.Dropped →
    stateAt s.1 eq2.index ≠ TransactionState.Dropped →
    stateAt s.1 (scopeOf s ep.index) = TransactionState.TxPending →
    scopeOf s eq2.index = scopeOf s ep.index → False

/-- Entries of one key carry strictly increasing layer indices in
array order. -/
def sortedIdx (h : History V) : Prop :=
  List.Pairwise (fun a b => a.index < b.index) h

/-- All recorded layer indices lie below `n`. -/
def boundedIdx (h : History V) (n : Nat) : Prop :=
  ∀ e ∈ h, e.index < n

/-- When two live entries share one currently-open transaction scope,
every live entry above them shares it too (open scopes can only be
multiply occupied at the top of the live chain, where the closing
folds deposited them). -/
def scopeCoherent (s : List TransactionState × Nat) (h : History V) : Prop :=
  ∀ p q z ep eq2 ez, p < q → q < z →
    h.get? p = some ep → h.get? q = some eq2 → h.get? z = some ez →
    stateAt s.1 ep.index ≠ TransactionState.Dropped →
    stateAt s.1 eq2.index ≠ TransactionState.Dropped →
    stateAt s.1 ez.index ≠ TransactionState.Dropped →
    stateAt s.1 (scopeOf s ep.index) = TransactionState.TxPending →
    scopeOf s eq2.index = scopeOf s ep.index →
    scopeOf s ez.index = scopeOf s ep.index

/-- Structural well-formedness every pair reachable through the public
operations satisfies. -/
def WF (s : States) (h : History V) : Prop :=
  s.committed < s.layers.length ∧
  stateAt s.layers s.committed ≠ TransactionState.TxPending ∧
  stateAt s.layers (s.layers.length - 1) ≠ TransactionState.Dropped ∧
  boundedIdx h s.layers.length ∧
  sortedIdx h ∧
  scopeCoherent (s.layers, s.committed) h

/-- States and history of one key reachable from a fresh session
through the public operations.  `unchecked_rollback_committed` is
constrained to a previous committed index, which is always at most the
current stack length. -/
inductive Reach : States → History V → Prop where
  | init : Reach States.start []
  | smut (v : V) {s h} : Reach s h →
      Reach s (History.set h (s.layers, s.committed) v)
  | gmut {s h} : Reach s h →
      Reach s (History.get_mut h (s.layers, s.committed)).2
  | gmutp (b : Bool) {s h} : Reach s h →
      Reach s (History.get_mut_pruning h (s.layers, s.committed) b).2
  | stx {s h} : Reach s h → Reach s.start_transaction h
  | ctx {s h} : Reach s h → Reach s.commit_transaction h
  | dtx {s h} : Reach s h → Reach s.discard_transaction h
  | cpro {s h} : Reach s h → Reach s.commit_prospective h
  | dpro {s h} : Reach s h → Reach s.discard_prospective h
  | rollb (old : Nat) {s h} : old ≤ s.layers.length → Reach s h →
      Reach (s.unchecked_rollback_committed old) h

/-! ### Operation traces -/

/-- One step of the shared-stack transaction protocol together with
per-key writes. -/
inductive Op (V : Type) where
  | setv (v : V)
  | start
  | commit
  | discard
deriving DecidableEq, Repr

/-- Apply one operation to the shared layer stack and one key's
history. -/
def applyOp : Op V → States × History V → States × History V
  | Op.setv v, (s, h) => (s, History.set h (s.layers, s.committed) v)
  | Op.start, (s, h) => (s.start_transaction, h)
  | Op.commit, (s, h) => (s.commit_transaction, h)
  | Op.discard, (s, h) => (s.discard_transaction, h)

/-- Apply a list of operations in order. -/
def applyOps (ops : List (Op V)) (sh : States × History V) : States × History V :=
  ops.foldl (fun sh op => applyOp op sh) sh

/-- `matchedRun d ops` holds when, starting at transaction depth `d`,
every `commit`/`discard` in `ops` closes a transaction opened inside
`ops` and depth returns to zero at the end: the run between a
`start_transaction` and the discard matching it. -/
def matchedRun : Nat → List (Op V) → Bool
  | d, [] => d = 0
  | d, Op.setv _ :: r => matchedRun d r
  | d, Op.start :: r => matchedRun (d + 1) r
  | d, Op.commit :: r => decide (0 < d) && matchedRun (d - 1) r
  | d, Op.discard :: r => decide (0 < d) && matchedRun (d - 1) r

/-- `History::get` restricted to entries written strictly below layer
`k`: the value visible through the prefix of the stack below `k`. -/
def maskedGetLoop (k : Nat) (h : History V) (l : List TransactionState) :
    Nat → Option V
  | 0 => none
  | i + 1 =>
    match h.get? i with
    | none => none
    | some e =>
      if k ≤ e.index then maskedGetLoop k h l i
      else
        match stateAt l e.index with
        | TransactionState.Dropped => maskedGetLoop k h l i
        | _ => some e.value

/-- The value `get` would return if every layer at or above `k` were
dropped. -/
def maskedGet (k : Nat) (h : History V) (l : List TransactionState) : Option V :=
  maskedGetLoop k h l h.length

/-- Well-formedness of a stack/history pair maintained by the
transactional operations: nothing committed, a non-empty stack,
in-range and strictly increasing layer indices. -/
def TraceWF (s : States) (h : History V) : Prop :=
  s.committed = 0 ∧ 1 ≤ s.layers.length ∧
  boundedIdx h s.layers.length ∧ sortedIdx h

/-- Invariant of the layer stack while a transaction frame opened at
layer `k` is running: the committed boundary stays at `c ≤ k`, layers
below `k` agree with the `base` stack, layer `k` is still `TxPending`,
and the `TxPending` layers above `k` are exactly the strictly
increasing list `ts` of still-open inner frames. -/
def ScopeJ (k c : Nat) (base : List TransactionState) (ts : List Nat)
    (s : States) : Prop :=
  s.committed = c ∧ c ≤ k ∧
  k < s.layers.length ∧
  (∀ i, i < k → stateAt s.layers i = stateAt base i) ∧
  stateAt s.layers k = TransactionState.TxPending ∧
  List.Pairwise (fun a b => a < b) ts ∧
  (∀ x ∈ ts, k < x ∧ x < s.layers.length) ∧
  (∀ i, k < i → i < s.layers.length →
    (stateAt s.layers i = TransactionState.TxPending ↔ i ∈ ts))

/-- Full invariant carried through a matched run of operations inside
the transaction frame opened at layer `k`: stack shape (`ScopeJ`),
ordered in-range history, and an unchanged value visible below `k`. -/
def RunInv (k c : Nat) (base : List TransactionState) (v0 : Option V)
    (ts : List Nat) (s : States) (h : History V) : Prop :=
  ScopeJ k c base ts s ∧
  sortedIdx h ∧ boundedIdx h s.layers.length ∧
  maskedGet k h s.layers = v0

/-! ### Basic facts about layer lookups -/

theorem stateAt_eq_get? (l : List TransactionState) (k : Nat) :
    stateAt l k = (l.get? k).getD TransactionState.Dropped :=
  List.getD_eq_get? l k TransactionState.Dropped

theorem stateAt_oob {l : List TransactionState} {k : Nat} (hk : l.length ≤ k) :
    stateAt l k = TransactionState.Dropped := by
  rw [stateAt_eq_get?, List.get?_eq_none.mpr hk]; rfl

theorem stateAt_lt_length {l : List TransactionState} {k : Nat}
    (hk : stateAt l k ≠ TransactionState.Dropped) : k < l.length := by
  by_contra hc
  exact hk (stateAt_oob (Nat.le_of_not_lt hc))

theorem stateAt_append_left {l l2 : List TransactionState} {k : Nat}
    (hk : k < l.length) : stateAt (l ++ l2) k = stateAt l k := by
  rw [stateAt_eq_get?, stateAt_eq_get?, List.get?_append hk]

theorem stateAt_concat_self (l : List TransactionState) (a : TransactionState) :
    stateAt (l ++ [a]) l.length = a := by
  rw [stateAt_eq_get?, List.get?_concat_length]; rfl

theorem stateAt_set_eq {l : List TransactionState} {k : Nat} (hk : k < l.length)
    (a : TransactionState) : stateAt (l.set k a) k = a := by
  rw [stateAt_eq_get?, List.get?_set_eq_of_lt a hk]; rfl

theorem stateAt_set_ne {l : List TransactionState} {j k : Nat} (hne : j ≠ k)
    (a : TransactionState) : stateAt (l.set j a) k = stateAt l k := by
  rw [stateAt_eq_get?, stateAt_eq_get?, List.get?_set_ne a l hne]

/-! ### The scope resolver -/

theorem findPrevTxGo_spec (l : List TransactionState) (c : Nat) : ∀ n,
    ((c ≤ findPrevTxGo l c n ∧ findPrevTxGo l c n < n ∧
        stateAt l (findPrevTxGo l c n) = TransactionState.TxPending)
      ∨ (findPrevTxGo l c n = c ∧
        ∀ j, c ≤ j → j < n → stateAt l j ≠ TransactionState.TxPending))
    ∧ (∀ j, c ≤ j → j < n → stateAt l j = TransactionState.TxPending →
        j ≤ findPrevTxGo l c n) := by
  intro n
  induction n with
  | zero =>
    constructor
    · exact Or.inr ⟨rfl, fun j _ hj => absurd hj (Nat.not_lt_zero j)⟩
    · exact fun j _ hj _ => absurd hj (Nat.not_lt_zero j)
  | succ n ih =>
    by_cases hc : c ≤ n
    · by_cases ht : stateAt l n = TransactionState.TxPending
      · simp only [findPrevTxGo, if_pos hc, if_pos ht]
        refine ⟨Or.inl ⟨hc, Nat.lt_succ_self n, ht⟩, ?_⟩
        intro j _ hj _; omega
      · simp only [findPrevTxGo, if_pos hc, if_neg ht]
        obtain ⟨ih1, ih2⟩ := ih
        constructor
        · rcases ih1 with ⟨h1, h2, h3⟩ | ⟨h1, h2⟩
          · exact Or.inl ⟨h1, Nat.lt_succ_of_lt h2, h3⟩
          · refine Or.inr ⟨h1, fun j hj1 hj2 => ?_⟩
            rcases Nat.lt_succ_iff_lt_or_eq.mp hj2 with hj3 | hj3
            · exact h2 j hj1 hj3
            · subst hj3; exact ht
        · intro j hj1 hj2 hj3
          rcases Nat.lt_succ_iff_lt_or_eq.mp hj2 with hj4 | hj4
          · exact ih2 j hj1 hj4 hj3
          · subst hj4; exact absurd hj3 ht
    · simp only [findPrevTxGo, if_neg hc]
      refine ⟨Or.inr ⟨by simp, fun j hj1 hj2 _ => ?_⟩, fun j hj1 hj2 _ => ?_⟩ <;> omega

theorem find_previous_tx_start_ge (s : List TransactionState × Nat) (n : Nat) :
    s.2 ≤ find_previous_tx_start s n := by
  rcases (findPrevTxGo_spec s.1 s.2 n).1 with ⟨h, _, _⟩ | ⟨h, _⟩
  · exact h
  · exact le_of_eq h.symm

theorem find_previous_tx_start_greatest (s : List TransactionState × Nat)
    {n j : Nat} (h1 : s.2 ≤ j) (h2 : j < n)
    (h3 : stateAt s.1 j = TransactionState.TxPending) :
    j ≤ find_previous_tx_start s n :=
  (findPrevTxGo_spec s.1 s.2 n).2 j h1 h2 h3

theorem find_previous_tx_start_cases (s : List TransactionState × Nat) (n : Nat) :
    (s.2 ≤ find_previous_tx_start s n ∧ find_previous_tx_start s n < n ∧
      stateAt s.1 (find_previous_tx_start s n) = TransactionState.TxPending)
    ∨ (find_previous_tx_start s n = s.2 ∧
      ∀ j, s.2 ≤ j → j < n → stateAt s.1 j ≠ TransactionState.TxPending) :=
  (findPrevTxGo_spec s.1 s.2 n).1

/-- C8: the scope resolver returns the greatest index in
`[committed, start)` whose layer state is `TxPending`, or `committed`
when no such index exists; it is a pure function of its arguments and
its scan does not skip `Dropped` layers (the characterization pins its
value on every input, dropped layers included). -/
theorem claim_C8_scope_resolver (l : List TransactionState) (c start : Nat)
    (hs : start ≤ l.length) :
    ((c ≤ find_previous_tx_start (l, c) start ∧
        find_previous_tx_start (l, c) start < start ∧
        stateAt l (find_previous_tx_start (l, c) start) = TransactionState.TxPending)
      ∨ (find_previous_tx_start (l, c) start = c ∧
        ∀ j, c ≤ j → j < start → stateAt l j ≠ TransactionState.TxPending))
    ∧ (∀ j, c ≤ j → j < start → stateAt l j = TransactionState.TxPending →
        j ≤ find_previous_tx_start (l, c) start) :=
  findPrevTxGo_spec l c start

theorem claim_C8_scope_resolver_witness :
    (2 : Nat) ≤ ([TransactionState.TxPending, TransactionState.Pending,
        TransactionState.Dropped] : List TransactionState).length ∧
    (((0 : Nat) ≤ find_previous_tx_start
          ([TransactionState.TxPending, TransactionState.Pending,
            TransactionState.Dropped], 0) 2 ∧
        find_previous_tx_start ([TransactionState.TxPending,
          TransactionState.Pending, TransactionState.Dropped], 0) 2 < 2 ∧
        stateAt [TransactionState.TxPending, TransactionState.Pending,
            TransactionState.Dropped]
          (find_previous_tx_start ([TransactionState.TxPending,
            TransactionState.Pending, TransactionState.Dropped], 0) 2)
          = TransactionState.TxPending)
      ∨ (find_previous_tx_start ([TransactionState.TxPending,
          TransactionState.Pending, TransactionState.Dropped], 0) 2 = 0 ∧
        ∀ j, 0 ≤ j → j < 2 →
          stateAt [TransactionState.TxPending, TransactionState.Pending,
            TransactionState.Dropped] j ≠ TransactionState.TxPending))
    ∧ (∀ j, 0 ≤ j → j < 2 →
        stateAt [TransactionState.TxPending, TransactionState.Pending,
          TransactionState.Dropped] j = TransactionState.TxPending →
        j ≤ find_previous_tx_start ([TransactionState.TxPending,
          TransactionState.Pending, TransactionState.Dropped], 0) 2) :=
  ⟨by decide,
    claim_C8_scope_resolver [TransactionState.TxPending,
      TransactionState.Pending, TransactionState.Dropped] 0 2 (by decide)⟩

/-! ### Empty-sequence boundary -/

/-- C9: on an empty Version Sequence, `get`, `into_pending` and
`into_committed` all return absent, and the (consumed) sequence is
unchanged — still empty. -/
theorem claim_C9_empty_boundary (V : Type) (l : List TransactionState) (c : Nat) :
    History.get ([] : History V) l = none ∧
    History.into_pending ([] : History V) l = (none, []) ∧
    History.into_committed ([] : History V) l c = (none, []) :=
  ⟨rfl, rfl, rfl⟩

/-! ### The greatest `TxPending` below a bound -/

theorem greatestTxBelow_zero (l : List TransactionState) (c : Nat) :
    greatestTxBelow l c 0 = none := rfl

theorem greatestTxBelow_succ_pos {l : List TransactionState} {c n : Nat}
    (hc : c ≤ n) (ht : stateAt l n = TransactionState.TxPending) :
    greatestTxBelow l c (n + 1) = some n := by
  unfold greatestTxBelow
  rw [List.range_succ, List.filter_append]
  have : List.filter
      (fun i => decide (c ≤ i ∧ stateAt l i = TransactionState.TxPending)) [n]
      = [n] := by
    simp [hc, ht]
  rw [this, List.getLast?_concat]

theorem greatestTxBelow_succ_neg {l : List TransactionState} {c n : Nat}
    (hn : ¬(c ≤ n ∧ stateAt l n = TransactionState.TxPending)) :
    greatestTxBelow l c (n + 1) = greatestTxBelow l c n := by
  unfold greatestTxBelow
  rw [List.range_succ, List.filter_append]
  have : List.filter
      (fun i => decide (c ≤ i ∧ stateAt l i = TransactionState.TxPending)) [n]
      = [] := by
    simp only [List.filter, decide_eq_true_eq]
    rw [decide_eq_false hn]
  rw [this, List.append_nil]

theorem greatestTxBelow_congr {l l2 : List TransactionState} {c n : Nat}
    (hl : ∀ j, j < n → stateAt l j = stateAt l2 j) :
    greatestTxBelow l c n = greatestTxBelow l2 c n := by
  unfold greatestTxBelow
  have : List.filter
        (fun i => decide (c ≤ i ∧ stateAt l i = TransactionState.TxPending))
        (List.range n)
      = List.filter
        (fun i => decide (c ≤ i ∧ stateAt l2 i = TransactionState.TxPending))
        (List.range n) := by
    apply List.filter_congr
    intro a ha
    rw [hl a (List.mem_range.mp ha)]
  rw [this]

theorem greatestTxBelow_some {l : List TransactionState} {c n j : Nat}
    (h : greatestTxBelow l c n = some j) :
    c ≤ j ∧ j < n ∧ stateAt l j = TransactionState.TxPending ∧
    ∀ m, j < m → m < n → stateAt l m ≠ TransactionState.TxPending := by
  induction n with
  | zero => rw [greatestTxBelow_zero] at h; cases h
  | succ n ih =>
    by_cases hx : c ≤ n ∧ stateAt l n = TransactionState.TxPending
    · rw [greatestTxBelow_succ_pos hx.1 hx.2] at h
      cases h
      exact ⟨hx.1, Nat.lt_succ_self j, hx.2, fun m hm1 hm2 => by omega⟩
    · rw [greatestTxBelow_succ_neg hx] at h
      obtain ⟨h1, h2, h3, h4⟩ := ih h
      refine ⟨h1, Nat.lt_succ_of_lt h2, h3, fun m hm1 hm2 hm3 => ?_⟩
      rcases Nat.lt_succ_iff_lt_or_eq.mp hm2 with hm4 | hm4
      · exact h4 m hm1 hm4 hm3
      · subst hm4; exact hx ⟨by omega, hm3⟩

theorem greatestTxBelow_none {l : List TransactionState} {c n : Nat}
    (h : greatestTxBelow l c n = none) :
    ∀ m, c ≤ m → m < n → stateAt l m ≠ TransactionState.TxPending := by
  induction n with
  | zero => exact fun m _ hm => absurd hm (Nat.not_lt_zero m)
  | succ n ih =>
    by_cases hx : c ≤ n ∧ stateAt l n = TransactionState.TxPending
    · rw [greatestTxBelow_succ_pos hx.1 hx.2] at h; cases h
    · rw [greatestTxBelow_succ_neg hx] at h
      intro m hm1 hm2 hm3
      rcases Nat.lt_succ_iff_lt_or_eq.mp hm2 with hm4 | hm4
      · exact ih h m hm1 hm4 hm3
      · subst hm4; exact hx ⟨hm1, hm3⟩

theorem greatestTxBelow_isSome {l : List TransactionState} {c n j : Nat}
    (h1 : c ≤ j) (h2 : j < n) (h3 : stateAt l j = TransactionState.TxPending) :
    ∃ j2, greatestTxBelow l c n = some j2 ∧ j ≤ j2 := by
  cases hg : greatestTxBelow l c n with
  | none => exact absurd h3 (greatestTxBelow_none hg j h1 h2)
  | some j2 =>
    obtain ⟨_, _, _, h4⟩ := greatestTxBelow_some hg
    refine ⟨j2, rfl, ?_⟩
    by_contra hc
    exact h4 j (Nat.lt_of_not_le hc) h2 h3

/-! ### `discard_transaction` and `commit_transaction` scans -/

theorem greatestTxBelow_none_of_le (l : List TransactionState) (c n : Nat)
    (hn : n ≤ c) : greatestTxBelow l c n = none := by
  induction n with
  | zero => exact greatestTxBelow_zero l c
  | succ n ih =>
    rw [greatestTxBelow_succ_neg (fun hx => by omega)]
    exact ih (by omega)

theorem discardTxLoop_spec (c : Nat) : ∀ (n : Nat) (l : List TransactionState),
    n ≤ l.length → ∀ k,
    stateAt (discardTxLoop c l n) k =
      match greatestTxBelow l c n with
      | some j =>
        if j < k ∧ k < n then
          (if stateAt l k = TransactionState.Pending then TransactionState.Dropped
           else stateAt l k)
        else if k = j then TransactionState.Dropped
        else stateAt l k
      | none =>
        if c ≤ k ∧ k < n then TransactionState.Dropped else stateAt l k := by
  intro n
  induction n with
  | zero =>
    intro l _ k
    rw [greatestTxBelow_zero]
    simp [discardTxLoop]
  | succ n ih =>
    intro l hn k
    have hnl : n < l.length := Nat.lt_of_succ_le hn
    have hsk : ∀ j, stateAt (l.set n TransactionState.Dropped) j
        = if j = n then TransactionState.Dropped else stateAt l j := by
      intro j
      by_cases hj : j = n
      · subst hj; rw [stateAt_set_eq hnl, if_pos rfl]
      · rw [stateAt_set_ne (fun hx => hj hx.symm), if_neg hj]
    by_cases hc : c < n + 1
    · rcases hs : stateAt l n with _ | _ | _
      · -- Pending: flip to Dropped and continue the scan
        have hnotT : ¬(c ≤ n ∧ stateAt l n = TransactionState.TxPending) := by
          rintro ⟨-, hx⟩; rw [hs] at hx; exact TransactionState.noConfusion hx
        have hstep : discardTxLoop c l (n + 1)
            = discardTxLoop c (l.set n TransactionState.Dropped) n := by
          simp [discardTxLoop, hc, hs]
        have hlen : n ≤ (l.set n TransactionState.Dropped).length := by
          rw [List.length_set]; omega
        have hsame : ∀ j, j < n →
            stateAt (l.set n TransactionState.Dropped) j = stateAt l j :=
          fun j hj => stateAt_set_ne (by omega) _
        rw [hstep, ih (l.set n TransactionState.Dropped) hlen k,
          greatestTxBelow_congr hsame, greatestTxBelow_succ_neg hnotT]
        cases hgn : greatestTxBelow l c n with
        | some j =>
          obtain ⟨hj1, hj2, hj3, _⟩ := greatestTxBelow_some hgn
          try dsimp only
          by_cases hk : k = n
          · rw [if_neg (show ¬(j < k ∧ k < n) from by omega),
              if_neg (show ¬(k = j) from by omega),
              hsk k, if_pos hk,
              if_pos (show j < k ∧ k < n + 1 from by omega),
              if_pos (show stateAt l k = TransactionState.Pending from by
                rw [hk]; exact hs)]
          · rw [hsk k, if_neg hk]
            simp only [show (j < k ∧ k < n + 1) ↔ (j < k ∧ k < n) from
              ⟨fun hx => ⟨hx.1, by omega⟩, fun hx => ⟨hx.1, by omega⟩⟩]
        | none =>
          try dsimp only
          by_cases hk : k = n
          · rw [if_neg (show ¬(c ≤ k ∧ k < n) from by omega),
              hsk k, if_pos hk,
              if_pos (show c ≤ k ∧ k < n + 1 from by omega)]
          · rw [hsk k, if_neg hk]
            simp only [show (c ≤ k ∧ k < n + 1) ↔ (c ≤ k ∧ k < n) from
              ⟨fun hx => ⟨hx.1, by omega⟩, fun hx => ⟨hx.1, by omega⟩⟩]
      · -- TxPending: flip to Dropped and stop
        have hstep : discardTxLoop c l (n + 1)
            = l.set n TransactionState.Dropped := by
          simp [discardTxLoop, hc, hs]
        rw [hstep, greatestTxBelow_succ_pos (by omega) hs]
        try dsimp only
        by_cases hk : k = n
        · rw [hsk k, if_pos hk,
            if_neg (show ¬(n < k ∧ k < n + 1) from by omega)]
        · rw [hsk k, if_neg hk,
            if_neg (show ¬(n < k ∧ k < n + 1) from by omega)]
      · -- Dropped: skip
        have hnotT : ¬(c ≤ n ∧ stateAt l n = TransactionState.TxPending) := by
          rintro ⟨-, hx⟩; rw [hs] at hx; exact TransactionState.noConfusion hx
        have hstep : discardTxLoop c l (n + 1) = discardTxLoop c l n := by
          simp [discardTxLoop, hc, hs]
        rw [hstep, ih l (by omega) k, greatestTxBelow_succ_neg hnotT]
        cases hgn : greatestTxBelow l c n with
        | some j =>
          obtain ⟨hj1, hj2, hj3, _⟩ := greatestTxBelow_some hgn
          try dsimp only
          by_cases hk : k = n
          · rw [if_neg (show ¬(j < k ∧ k < n) from by omega),
              if_neg (show ¬(k = j) from by omega),
              if_pos (show j < k ∧ k < n + 1 from by omega),
              if_neg (show ¬(stateAt l k = TransactionState.Pending) from by
                intro hx; rw [hk, hs] at hx
                exact TransactionState.noConfusion hx)]
          · simp only [show (j < k ∧ k < n + 1) ↔ (j < k ∧ k < n) from
              ⟨fun hx => ⟨hx.1, by omega⟩, fun hx => ⟨hx.1, by omega⟩⟩]
        | none =>
          try dsimp only
          by_cases hk : k = n
          · rw [if_neg (show ¬(c ≤ k ∧ k < n) from by omega),
              if_pos (show c ≤ k ∧ k < n + 1 from by omega), hk]
            exact hs
          · simp only [show (c ≤ k ∧ k < n + 1) ↔ (c ≤ k ∧ k < n) from
              ⟨fun hx => ⟨hx.1, by omega⟩, fun hx => ⟨hx.1, by omega⟩⟩]
    · -- the scan never runs: the committed boundary is already reached
      have hstep : discardTxLoop c l (n + 1) = l := by
        simp [discardTxLoop, hc]
      rw [hstep, greatestTxBelow_none_of_le l c (n + 1) (by omega)]
      try dsimp only
      rw [if_neg (show ¬(c ≤ k ∧ k < n + 1) from by omega)]

theorem discardTxLoop_length (c : Nat) : ∀ (n : Nat) (l : List TransactionState),
    (discardTxLoop c l n).length = l.length := by
  intro n
  induction n with
  | zero => intro l; rfl
  | succ n ih =>
    intro l
    by_cases hc : c < n + 1
    · rcases hs : stateAt l n with _ | _ | _
      · have : discardTxLoop c l (n + 1)
            = discardTxLoop c (l.set n TransactionState.Dropped) n := by
          simp [discardTxLoop, hc, hs]
        rw [this, ih, List.length_set]
      · have : discardTxLoop c l (n + 1) = l.set n TransactionState.Dropped := by
          simp [discardTxLoop, hc, hs]
        rw [this, List.length_set]
      · have : discardTxLoop c l (n + 1) = discardTxLoop c l n := by
          simp [discardTxLoop, hc, hs]
        rw [this, ih]
    · have : discardTxLoop c l (n + 1) = l := by simp [discardTxLoop, hc]
      rw [this]

theorem commitTxLoop_length (c : Nat) : ∀ (n : Nat) (l : List TransactionState),
    (commitTxLoop c l n).length = l.length := by
  intro n
  induction n with
  | zero => intro l; rfl
  | succ n ih =>
    intro l
    by_cases hc : c < n + 1
    · rcases hs : stateAt l n with _ | _ | _
      · have : commitTxLoop c l (n + 1) = commitTxLoop c l n := by
          simp [commitTxLoop, hc, hs]
        rw [this, ih]
      · have : commitTxLoop c l (n + 1) = l.set n TransactionState.Pending := by
          simp [commitTxLoop, hc, hs]
        rw [this, List.length_set]
      · have : commitTxLoop c l (n + 1) = commitTxLoop c l n := by
          simp [commitTxLoop, hc, hs]
        rw [this, ih]
    · have : commitTxLoop c l (n + 1) = l := by simp [commitTxLoop, hc]
      rw [this]

theorem commitTxLoop_spec (c : Nat) : ∀ (n : Nat) (l : List TransactionState),
    n ≤ l.length → ∀ k,
    stateAt (commitTxLoop c l n) k =
      match greatestTxBelow l c n with
      | some j => if k = j then TransactionState.Pending else stateAt l k
      | none => stateAt l k := by
  intro n
  induction n with
  | zero =>
    intro l _ k
    rw [greatestTxBelow_zero]
    rfl
  | succ n ih =>
    intro l hn k
    have hnl : n < l.length := Nat.lt_of_succ_le hn
    by_cases hc : c < n + 1
    · rcases hs : stateAt l n with _ | _ | _
      · have hnotT : ¬(c ≤ n ∧ stateAt l n = TransactionState.TxPending) := by
          rintro ⟨-, hx⟩; rw [hs] at hx; exact TransactionState.noConfusion hx
        have hstep : commitTxLoop c l (n + 1) = commitTxLoop c l n := by
          simp [commitTxLoop, hc, hs]
        rw [hstep, ih l (by omega) k, greatestTxBelow_succ_neg hnotT]
      · have hstep : commitTxLoop c l (n + 1)
            = l.set n TransactionState.Pending := by
          simp [commitTxLoop, hc, hs]
        rw [hstep, greatestTxBelow_succ_pos (by omega) hs]
        try dsimp only
        by_cases hk : k = n
        · rw [if_pos hk, hk, stateAt_set_eq hnl]
        · rw [if_neg hk, stateAt_set_ne (fun hx => hk hx.symm)]
      · have hnotT : ¬(c ≤ n ∧ stateAt l n = TransactionState.TxPending) := by
          rintro ⟨-, hx⟩; rw [hs] at hx; exact TransactionState.noConfusion hx
        have hstep : commitTxLoop c l (n + 1) = commitTxLoop c l n := by
          simp [commitTxLoop, hc, hs]
        rw [hstep, ih l (by omega) k, greatestTxBelow_succ_neg hnotT]
    · have hstep : commitTxLoop c l (n + 1) = l := by simp [commitTxLoop, hc]
      rw [hstep, greatestTxBelow_none_of_le l c (n + 1) (by omega)]

/-- C6: `discard_transaction` scans from the top down to the committed
boundary: every `Pending` layer above the stopping point is flipped to
`Dropped`, `Dropped` layers stay as they are, the first (greatest)
`TxPending` layer is flipped to `Dropped` and the scan stops there,
leaving everything below untouched; when no `TxPending` exists in
`[committed, len)`, every layer from `committed` up is dropped; in
every case exactly one fresh `Pending` layer is appended. -/
theorem claim_C6_discard_transaction (s : States) :
    (States.discard_transaction s).layers.length = s.layers.length + 1 ∧
    stateAt (States.discard_transaction s).layers s.layers.length
      = TransactionState.Pending ∧
    (States.discard_transaction s).committed = s.committed ∧
    ∀ k, k < s.layers.length →
      stateAt (States.discard_transaction s).layers k
        = discardTxDescribed s.layers s.committed k := by
  have hlen : (discardTxLoop s.committed s.layers s.layers.length).length
      = s.layers.length := discardTxLoop_length s.committed s.layers.length s.layers
  refine ⟨?_, ?_, rfl, ?_⟩
  · show (discardTxLoop s.committed s.layers s.layers.length
      ++ [TransactionState.Pending]).length = s.layers.length + 1
    rw [List.length_append, hlen]; rfl
  · show stateAt (discardTxLoop s.committed s.layers s.layers.length
      ++ [TransactionState.Pending]) s.layers.length = TransactionState.Pending
    have hx := stateAt_concat_self
      (discardTxLoop s.committed s.layers s.layers.length) TransactionState.Pending
    rw [hlen] at hx
    exact hx
  · intro k hk
    show stateAt (discardTxLoop s.committed s.layers s.layers.length
      ++ [TransactionState.Pending]) k = _
    rw [stateAt_append_left (by omega),
      discardTxLoop_spec s.committed s.layers.length s.layers (le_refl _) k]
    cases hg : greatestTxBelow s.layers s.committed s.layers.length <;>
      simp [discardTxDescribed, hg, hk]

/-! ### `get_mut_pruning` with the flag clear is `get_mut` -/

theorem getMutPruningLoop_false (h : History V) (s : List TransactionState × Nat) :
    ∀ (i : Nat) (result : Option (Nat × Nat)) (ptx : Option Nat)
      (psw : Option (Nat × Nat)) (pidx : Nat),
    (getMutPruningLoop h s false i result ptx psw pidx).1
        = (getMutLoop h s i result ptx psw).1 ∧
    (getMutPruningLoop h s false i result ptx psw pidx).2.1
        = (getMutLoop h s i result ptx psw).2 := by
  intro i
  induction i with
  | zero => exact fun result ptx psw pidx => ⟨rfl, rfl⟩
  | succ i ih =>
    intro result ptx psw pidx
    cases he : h.get? i with
    | none =>
      simp only [getMutPruningLoop, getMutLoop, he]
      exact ⟨by trivial, by trivial⟩
    | some e =>
      cases hst : stateAt s.1 e.index with
      | TxPending =>
        by_cases hg : geInf e.index ptx = true
        · simp only [getMutPruningLoop, getMutLoop, he, hst, if_pos hg,
            Bool.false_eq_true, if_false]
          exact ⟨by trivial, by trivial⟩
        · cases result with
          | none =>
            simp only [getMutPruningLoop, getMutLoop, he, hst, if_neg hg,
              if_pos (show (none : Option (Nat × Nat)).isNone = true from rfl),
              Bool.false_eq_true, if_false]
            exact ⟨by trivial, by trivial⟩
          | some r =>
            simp only [getMutPruningLoop, getMutLoop, he, hst, if_neg hg,
              if_neg (show ¬((some r).isNone = true) from by simp),
              Bool.false_eq_true, if_false]
            exact ⟨by trivial, by trivial⟩
      | Pending =>
        by_cases hg : geInf e.index ptx = true
        · simp only [getMutPruningLoop, getMutLoop, he, hst, if_pos hg]
          exact ih _ _ _ _
        · cases result with
          | none =>
            simp only [getMutPruningLoop, getMutLoop, he, hst, if_neg hg,
              if_pos (show (none : Option (Nat × Nat)).isNone = true from rfl)]
            exact ih _ _ _ _
          | some r =>
            simp only [getMutPruningLoop, getMutLoop, he, hst, if_neg hg,
              if_neg (show ¬((some r).isNone = true) from by simp),
              Bool.false_eq_true, if_false]
            exact ⟨by trivial, by trivial⟩
      | Dropped =>
        simp only [getMutPruningLoop, getMutLoop, he, hst]
        exact ih _ _ _ _

theorem get_mut_pruning_false (h : History V) (s : List TransactionState × Nat) :
    History.get_mut_pruning h s false = History.get_mut h s := by
  unfold History.get_mut_pruning History.get_mut
  by_cases h0 : h.length = 0
  · simp [h0]
  · rw [if_neg h0, if_neg h0]
    rcases hE : getMutPruningLoop h s false h.length none none none 0
      with ⟨result, psw, pidx⟩
    rcases hG : getMutLoop h s h.length none none none with ⟨result2, psw2⟩
    have e1 : result = result2 := by
      have := (getMutPruningLoop_false h s h.length none none none 0).1
      rw [hE, hG] at this
      exact this
    have e2 : psw = psw2 := by
      have := (getMutPruningLoop_false h s h.length none none none 0).2
      rw [hE, hG] at this
      exact this
    subst e1; subst e2
    cases result with
    | none => simp
    | some r =>
      rcases r with ⟨ri, rsi⟩
      simp only [Bool.false_eq_true, false_and, if_false, Nat.sub_zero]

/-- C2: with the prune flag clear, `get_mut_pruning` is exactly
`get_mut`: the same handle (same array position, same layer tag, hence
the same value) or `None` on the same inputs, and the same final
sequence. -/
theorem claim_C2_pruning_flag_clear (V : Type) (h : History V)
    (s : List TransactionState × Nat) :
    History.get_mut_pruning h s false = History.get_mut h s :=
  get_mut_pruning_false h s

/-! ### Characterizing the `get_mut` scan -/

theorem getMutLoop_persist (h : History V) (s : List TransactionState × Nat) :
    ∀ (i : Nat) (r : Nat × Nat) (ptx : Option Nat) (psw : Option (Nat × Nat)),
    (getMutLoop h s i (some r) ptx psw).1 = some r := by
  intro i
  induction i with
  | zero => intro r ptx psw; rfl
  | succ i ih =>
    intro r ptx psw
    cases he : h.get? i with
    | none => simp only [getMutLoop, he]
    | some e =>
      cases hst : stateAt s.1 e.index with
      | TxPending =>
        by_cases hg : geInf e.index ptx = true
        · simp only [getMutLoop, he, hst, if_pos hg]
        · simp only [getMutLoop, he, hst, if_neg hg,
            if_neg (show ¬((some r).isNone = true) from by simp)]
      | Pending =>
        by_cases hg : geInf e.index ptx = true
        · simp only [getMutLoop, he, hst, if_pos hg]
          exact ih r ptx (some (i, e.index))
        · simp only [getMutLoop, he, hst, if_neg hg,
            if_neg (show ¬((some r).isNone = true) from by simp)]
      | Dropped =>
        simp only [getMutLoop, he, hst]
        exact ih r ptx psw

theorem exists_get?_of_lt (h : History V) (i : Nat) (hip : i < h.length) :
    ∃ e, h.get? i = some e := by
  cases hx : h.get? i with
  | none => exact absurd (List.get?_eq_none.mp hx) (by omega)
  | some e => exact ⟨e, rfl⟩

theorem firstLiveBelow_some (h : History V) (l : List TransactionState) :
    ∀ (i p : Nat), i ≤ h.length → firstLiveBelow h l i = some p →
    p < i ∧ (∃ e, h.get? p = some e ∧ stateAt l e.index ≠ TransactionState.Dropped)
    ∧ ∀ j, p < j → j < i → ∀ e2, h.get? j = some e2 →
        stateAt l e2.index = TransactionState.Dropped := by
  intro i
  induction i with
  | zero => intro p _ hp; exact absurd hp (by simp [firstLiveBelow])
  | succ i ih =>
    intro p hi hp
    have hip : i < h.length := Nat.lt_of_succ_le hi
    obtain ⟨e, he⟩ := exists_get?_of_lt h i hip
    by_cases hd : stateAt l e.index = TransactionState.Dropped
    · have hstep : firstLiveBelow h l (i + 1) = firstLiveBelow h l i := by
        simp only [firstLiveBelow, he, if_pos hd]
      rw [hstep] at hp
      obtain ⟨h1, h2, h3⟩ := ih p (by omega) hp
      refine ⟨by omega, h2, fun j hj1 hj2 e2 he2 => ?_⟩
      rcases Nat.lt_succ_iff_lt_or_eq.mp hj2 with hj3 | hj3
      · exact h3 j hj1 hj3 e2 he2
      · subst hj3
        rw [he] at he2
        cases he2
        exact hd
    · have hstep : firstLiveBelow h l (i + 1) = some i := by
        simp only [firstLiveBelow, he, if_neg hd]
      rw [hstep] at hp
      cases hp
      exact ⟨Nat.lt_succ_self i, ⟨e, he, hd⟩, fun j hj1 hj2 e2 _ => by omega⟩

theorem firstLiveBelow_none (h : History V) (l : List TransactionState) :
    ∀ (i : Nat), i ≤ h.length → firstLiveBelow h l i = none →
    ∀ j, j < i → ∀ e, h.get? j = some e →
      stateAt l e.index = TransactionState.Dropped := by
  intro i
  induction i with
  | zero => intro _ _ j hj; omega
  | succ i ih =>
    intro hi hp j hj e he
    have hip : i < h.length := Nat.lt_of_succ_le hi
    obtain ⟨ei, hei⟩ := exists_get?_of_lt h i hip
    by_cases hd : stateAt l ei.index = TransactionState.Dropped
    · have hstep : firstLiveBelow h l (i + 1) = firstLiveBelow h l i := by
        simp only [firstLiveBelow, hei, if_pos hd]
      rw [hstep] at hp
      rcases Nat.lt_succ_iff_lt_or_eq.mp hj with hj2 | hj2
      · exact ih (by omega) hp j hj2 e he
      · subst hj2; rw [hei] at he; cases he; exact hd
    · have hstep : firstLiveBelow h l (i + 1) = some i := by
        simp only [firstLiveBelow, hei, if_neg hd]
      rw [hstep] at hp
      cases hp

theorem getMutLoop_skip (h : History V) (s : List TransactionState × Nat) :
    ∀ (i m : Nat), i ≤ h.length → m ≤ i →
    (∀ j, m ≤ j → j < i → ∀ e, h.get? j = some e →
      stateAt s.1 e.index = TransactionState.Dropped) →
    ∀ res ptx psw, getMutLoop h s i res ptx psw = getMutLoop h s m res ptx psw := by
  intro i
  induction i with
  | zero => intro m _ hm _ res ptx psw; rw [Nat.le_zero.mp hm]
  | succ i ih =>
    intro m hi hm hdrop res ptx psw
    rcases Nat.lt_succ_iff_lt_or_eq.mp (Nat.lt_succ_of_le hm) with hm2 | hm2
    · have hip : i < h.length := Nat.lt_of_succ_le hi
      obtain ⟨ei, hei⟩ := exists_get?_of_lt h i hip
      have hd : stateAt s.1 ei.index = TransactionState.Dropped :=
        hdrop i (by omega) (Nat.lt_succ_self i) ei hei
      have hstep : getMutLoop h s (i + 1) res ptx psw
          = getMutLoop h s i res ptx psw := by
        simp only [getMutLoop, hei, hd]
      rw [hstep]
      exact ih m (by omega) (by omega)
        (fun j hj1 hj2 e he => hdrop j hj1 (by omega) e he) res ptx psw
    · rw [hm2]

theorem getMutLoop_result (h : History V) (s : List TransactionState × Nat)
    (hlen : h.length ≤ h.length) :
    (firstLiveBelow h s.1 h.length = none →
      getMutLoop h s h.length none none none = (none, none)) ∧
    (∀ p, firstLiveBelow h s.1 h.length = some p →
      ∃ e, h.get? p = some e ∧
        (getMutLoop h s h.length none none none).1 = some (p, e.index)) := by
  constructor
  · intro hfl
    rw [getMutLoop_skip h s h.length 0 (le_refl _) (Nat.zero_le _)
      (fun j hj1 hj2 e he => firstLiveBelow_none h s.1 h.length (le_refl _) hfl j hj2 e he)]
    rfl
  · intro p hfl
    obtain ⟨hp1, ⟨e, he, hd⟩, h3⟩ :=
      firstLiveBelow_some h s.1 h.length p (le_refl _) hfl
    refine ⟨e, he, ?_⟩
    rw [getMutLoop_skip h s h.length (p + 1) (le_refl _) (by omega)
      (fun j hj1 hj2 e2 he2 => h3 j (by omega) hj2 e2 he2)]
    cases hst : stateAt s.1 e.index with
    | TxPending =>
      simp only [getMutLoop, he, hst,
        if_neg (show ¬(geInf e.index none = true) from by simp [geInf]),
        if_pos (show (none : Option (Nat × Nat)).isNone = true from rfl)]
    | Pending =>
      simp only [getMutLoop, he, hst,
        if_neg (show ¬(geInf e.index none = true) from by simp [geInf]),
        if_pos (show (none : Option (Nat × Nat)).isNone = true from rfl)]
      exact getMutLoop_persist h s p (p, e.index) _ none
    | Dropped => exact absurd hst hd

theorem getMutLoop_wf (h : History V) (s : List TransactionState × Nat) :
    ∀ (i : Nat) (res : Option (Nat × Nat)) (ptx : Option Nat)
      (psw : Option (Nat × Nat)),
    i ≤ h.length →
    (res = none → ptx = none ∧ psw = none) →
    (∀ a b, res = some (a, b) → i ≤ a ∧ a < h.length ∧
      ∃ e, h.get? a = some e ∧ e.index = b ∧
        stateAt s.1 e.index ≠ TransactionState.Dropped) →
    (∀ a b, psw = some (a, b) →
      (∃ e, h.get? a = some e ∧ e.index = b ∧
        stateAt s.1 e.index ≠ TransactionState.Dropped) ∧
      ∃ ra rb, res = some (ra, rb) ∧ i ≤ a ∧ a < ra) →
    (∀ a b, (getMutLoop h s i res ptx psw).1 = some (a, b) → a < h.length ∧
      ∃ e, h.get? a = some e ∧ e.index = b ∧
        stateAt s.1 e.index ≠ TransactionState.Dropped) ∧
    (∀ a b, (getMutLoop h s i res ptx psw).2 = some (a, b) →
      (∃ e, h.get? a = some e ∧ e.index = b ∧
        stateAt s.1 e.index ≠ TransactionState.Dropped) ∧
      ∃ ra rb, (getMutLoop h s i res ptx psw).1 = some (ra, rb) ∧ a < ra) := by
  intro i
  induction i with
  | zero =>
    intro res ptx psw _ hn hr hs2
    constructor
    · intro a b hab
      obtain ⟨h1, h2, h3⟩ := hr a b hab
      exact ⟨h2, h3⟩
    · intro a b hab
      obtain ⟨h1, ra, rb, h2, h3, h4⟩ := hs2 a b hab
      exact ⟨h1, ra, rb, h2, h4⟩
  | succ i ih =>
    intro res ptx psw hi hn hr hs2
    have hip : i < h.length := Nat.lt_of_succ_le hi
    obtain ⟨e, he⟩ := exists_get?_of_lt h i hip
    cases hst : stateAt s.1 e.index with
    | Dropped =>
      simp only [getMutLoop, he, hst]
      refine ih res ptx psw (by omega) hn ?_ ?_
      · intro a b hab
        obtain ⟨h1, h2, h3⟩ := hr a b hab
        exact ⟨by omega, h2, h3⟩
      · intro a b hab
        obtain ⟨h1, ra, rb, h2, h3, h4⟩ := hs2 a b hab
        exact ⟨h1, ra, rb, h2, by omega, h4⟩
    | TxPending =>
      have hlive : stateAt s.1 e.index ≠ TransactionState.Dropped := by
        rw [hst]; intro hx; exact TransactionState.noConfusion hx
      by_cases hg : geInf e.index ptx = true
      · -- switch recorded, scan stops
        have hres : ∃ ra rb, res = some (ra, rb) ∧ i + 1 ≤ ra ∧ ra < h.length := by
          cases res with
          | none =>
            obtain ⟨hptx, -⟩ := hn rfl
            rw [hptx] at hg
            exact absurd hg (by simp [geInf])
          | some r =>
            obtain ⟨h1, h2, -⟩ := hr r.1 r.2 (by rw [Prod.mk.eta])
            exact ⟨r.1, r.2, by rw [Prod.mk.eta], h1, h2⟩
        obtain ⟨ra, rb, hres, hra1, hra2⟩ := hres
        simp only [getMutLoop, he, hst, if_pos hg]
        constructor
        · intro a b hab
          obtain ⟨h1, h2, h3⟩ := hr a b hab
          exact ⟨h2, h3⟩
        · intro a b hab
          cases hab
          exact ⟨⟨e, he, rfl, hlive⟩, ra, rb, hres, by omega⟩
      · cases hres : res with
        | none =>
          obtain ⟨hptx, hpsw⟩ := hn hres
          subst hres
          simp only [getMutLoop, he, hst, if_neg hg,
            if_pos (show (none : Option (Nat × Nat)).isNone = true from rfl)]
          constructor
          · intro a b hab
            cases hab
            exact ⟨hip, e, he, rfl, hlive⟩
          · intro a b hab
            rw [hpsw] at hab
            cases hab
        | some r =>
          subst hres
          simp only [getMutLoop, he, hst, if_neg hg,
            if_neg (show ¬((some r).isNone = true) from by simp)]
          constructor
          · intro a b hab
            obtain ⟨h1, h2, h3⟩ := hr a b hab
            exact ⟨h2, h3⟩
          · intro a b hab
            obtain ⟨h1, ra, rb, h2, h3, h4⟩ := hs2 a b hab
            exact ⟨h1, ra, rb, h2, h4⟩
    | Pending =>
      have hlive : stateAt s.1 e.index ≠ TransactionState.Dropped := by
        rw [hst]; intro hx; exact TransactionState.noConfusion hx
      by_cases hg : geInf e.index ptx = true
      · have hres : ∃ ra rb, res = some (ra, rb) ∧ i + 1 ≤ ra ∧ ra < h.length := by
          cases res with
          | none =>
            obtain ⟨hptx, -⟩ := hn rfl
            rw [hptx] at hg
            exact absurd hg (by simp [geInf])
          | some r =>
            obtain ⟨h1, h2, -⟩ := hr r.1 r.2 (by rw [Prod.mk.eta])
            exact ⟨r.1, r.2, by rw [Prod.mk.eta], h1, h2⟩
        obtain ⟨ra, rb, hres, hra1, hra2⟩ := hres
        simp only [getMutLoop, he, hst, if_pos hg]
        refine ih res ptx (some (i, e.index)) (by omega) ?_ ?_ ?_
        · intro hx; rw [hx] at hres; cases hres
        · intro a b hab
          obtain ⟨h1, h2, h3⟩ := hr a b hab
          exact ⟨by omega, h2, h3⟩
        · intro a b hab
          cases hab
          exact ⟨⟨e, he, rfl, hlive⟩, ra, rb, hres, le_refl _, by omega⟩
      · cases hres : res with
        | none =>
          obtain ⟨hptx, hpsw⟩ := hn hres
          subst hres
          simp only [getMutLoop, he, hst, if_neg hg,
            if_pos (show (none : Option (Nat × Nat)).isNone = true from rfl)]
          refine ih (some (i, e.index)) (some (find_previous_tx_start s e.index))
            psw (by omega) ?_ ?_ ?_
          · intro hx; cases hx
          · intro a b hab
            cases hab
            exact ⟨le_refl _, hip, e, he, rfl, hlive⟩
          · intro a b hab
            rw [hpsw] at hab
            cases hab
        | some r =>
          subst hres
          simp only [getMutLoop, he, hst, if_neg hg,
            if_neg (show ¬((some r).isNone = true) from by simp)]
          constructor
          · intro a b hab
            obtain ⟨h1, h2, h3⟩ := hr a b hab
            exact ⟨h2, h3⟩
          · intro a b hab
            obtain ⟨h1, ra, rb, h2, h3, h4⟩ := hs2 a b hab
            exact ⟨h1, ra, rb, h2, h4⟩

theorem get_mut_none_char (h : History V) (s : List TransactionState × Nat)
    (hfl : firstLiveBelow h s.1 h.length = none) :
    History.get_mut h s = (none, []) := by
  unfold History.get_mut
  by_cases h0 : h.length = 0
  · rw [if_pos h0, List.length_eq_zero.mp h0]
  · rw [if_neg h0, (getMutLoop_result h s (le_refl _)).1 hfl]

theorem get_mut_some_char (h : History V) (s : List TransactionState × Nat)
    (p : Nat) (hfl : firstLiveBelow h s.1 h.length = some p) :
    ∃ e pos sidx epos,
      h.get? p = some e ∧ stateAt s.1 e.index ≠ TransactionState.Dropped ∧
      h.get? pos = some epos ∧ epos.index = sidx ∧
      stateAt s.1 epos.index ≠ TransactionState.Dropped ∧
      pos ≤ p ∧ p < h.length ∧
      History.get_mut h s
        = (some (pos, sidx), h.take pos ++ [⟨e.value, sidx⟩]) := by
  obtain ⟨hp1, ⟨e, he, hlive⟩, habove⟩ :=
    firstLiveBelow_some h s.1 h.length p (le_refl _) hfl
  obtain ⟨e2, he2, hres0⟩ := (getMutLoop_result h s (le_refl _)).2 p hfl
  rw [he] at he2
  cases he2
  rcases hloop : getMutLoop h s h.length none none none with ⟨res, psw⟩
  rw [hloop] at hres0
  simp only at hres0
  subst hres0
  have h0 : ¬h.length = 0 := by omega
  have hwf := getMutLoop_wf h s h.length none none none (le_refl _)
    (fun _ => ⟨rfl, rfl⟩) (fun a b hab => by cases hab) (fun a b hab => by cases hab)
  rw [hloop] at hwf
  have hh1 : (if p + 1 < h.length then h.take (p + 1) else h) = h.take (p + 1) := by
    by_cases hx : p + 1 < h.length
    · rw [if_pos hx]
    · rw [if_neg hx, List.take_all_of_le (by omega)]
  have htk : h.take (p + 1) = h.take p ++ [e] := by
    rw [List.take_succ, List.get?_eq_getElem?] at *
    rw [he]
    rfl
  cases psw with
  | none =>
    refine ⟨e, p, e.index, e, he, hlive, he, rfl, hlive, le_refl _, hp1, ?_⟩
    unfold History.get_mut
    rw [if_neg h0, hloop]
    simp only
    rw [hh1, htk]
  | some sw =>
    rcases sw with ⟨sp, spi⟩
    obtain ⟨⟨esp, hesp, hespi, hesplive⟩, ra, rb, hra, hlt⟩ :=
      hwf.2 sp spi rfl
    have hra2 : ra = p ∧ rb = e.index := by
      cases hra
      exact ⟨rfl, rfl⟩
    obtain ⟨hra2, -⟩ := hra2
    have hsp : sp < p := hra2 ▸ hlt
    refine ⟨e, sp, spi, esp, he, hlive, hesp, hespi, hesplive, by omega, hp1, ?_⟩
    unfold History.get_mut
    rw [if_neg h0, hloop]
    simp only
    rw [hh1, htk]
    have hlast : (h.take p ++ [e]).getLast? = some e := List.getLast?_concat _
    rw [hlast]
    simp only
    have hdl : (h.take p ++ [e]).dropLast = h.take p := List.dropLast_concat
    rw [hdl]
    have htp : (h.take p).take sp = h.take sp := by
      rw [List.take_take]
      have : sp ⊓ p = sp := by omega
      rw [this]
    rw [htp]

theorem getLoop_eq_firstLive (h : History V) (l : List TransactionState) :
    ∀ i, i ≤ h.length → getLoop h l i
      = Option.bind (firstLiveBelow h l i)
          (fun p => Option.map (fun e => e.value) (h.get? p)) := by
  intro i
  induction i with
  | zero => intro _; rfl
  | succ i ih =>
    intro hi
    have hip : i < h.length := Nat.lt_of_succ_le hi
    obtain ⟨e, he⟩ := exists_get?_of_lt h i hip
    by_cases hd : stateAt l e.index = TransactionState.Dropped
    · have h1 : getLoop h l (i + 1) = getLoop h l i := by
        simp only [getLoop, he, hd]
      have h2 : firstLiveBelow h l (i + 1) = firstLiveBelow h l i := by
        simp only [firstLiveBelow, he, if_pos hd]
      rw [h1, h2, ih (by omega)]
    · have h2 : firstLiveBelow h l (i + 1) = some i := by
        simp only [firstLiveBelow, he, if_neg hd]
      rw [h2]
      cases hst : stateAt l e.index with
      | Dropped => exact absurd hst hd
      | Pending => simp only [getLoop, he, hst, Option.bind, he, Option.map]
      | TxPending => simp only [getLoop, he, hst, Option.bind, he, Option.map]

theorem intoPendingLoop_fst_eq_firstLive (h : History V)
    (l : List TransactionState) :
    ∀ i, i ≤ h.length → (intoPendingLoop h l i).1
      = Option.bind (firstLiveBelow h l i)
          (fun p => Option.map (fun e => e.value) (h.get? p)) := by
  intro i
  induction i with
  | zero => intro _; rfl
  | succ i ih =>
    intro hi
    have hip : i < h.length := Nat.lt_of_succ_le hi
    obtain ⟨e, he⟩ := exists_get?_of_lt h i hip
    by_cases hd : stateAt l e.index = TransactionState.Dropped
    · have h1 : intoPendingLoop h l (i + 1) = intoPendingLoop h l i := by
        simp only [intoPendingLoop, he, hd]
      have h2 : firstLiveBelow h l (i + 1) = firstLiveBelow h l i := by
        simp only [firstLiveBelow, he, if_pos hd]
      rw [h1, h2, ih (by omega)]
    · have h2 : firstLiveBelow h l (i + 1) = some i := by
        simp only [firstLiveBelow, he, if_neg hd]
      rw [h2]
      cases hst : stateAt l e.index with
      | Dropped => exact absurd hst hd
      | Pending => simp only [intoPendingLoop, he, hst, Option.bind, he, Option.map]
      | TxPending => simp only [intoPendingLoop, he, hst, Option.bind, he, Option.map]

/-- C1: all read paths agree on the live entry: `into_pending` returns
exactly what `get` returns, and the `get_mut` handle (for any
committed index) holds exactly the value `get` returns; in particular
all of them are absent on the same inputs. -/
theorem claim_C1_read_paths_agree (V : Type) (h : History V)
    (l : List TransactionState) (c : Nat)
    (hb : ∀ e ∈ h, e.index < l.length) :
    (History.into_pending h l).1 = History.get h l ∧
    getMutValue h (l, c) = History.get h l := by
  constructor
  · rw [History.into_pending, History.get,
      intoPendingLoop_fst_eq_firstLive h l h.length (le_refl _),
      getLoop_eq_firstLive h l h.length (le_refl _)]
  · rw [History.get, getLoop_eq_firstLive h l h.length (le_refl _)]
    cases hfl : firstLiveBelow h l h.length with
    | none =>
      rw [getMutValue, get_mut_none_char h (l, c) hfl]
      rfl
    | some p =>
      obtain ⟨e, pos, sidx, epos, he, hlive, hepos, hspi, heposlive,
        hple, hplt, hgm⟩ := get_mut_some_char h (l, c) p hfl
      rw [getMutValue, hgm]
      simp only
      have hlen : (h.take pos).length = pos :=
        List.length_take_of_le (by omega)
      rw [List.get?_append_right (by omega), hlen, Nat.sub_self]
      simp only [List.get?, Option.bind]
      rw [he]
      rfl

theorem claim_C1_read_paths_agree_witness :
    (∀ e ∈ [(⟨10, 0⟩ : HistoriedValue Nat), ⟨20, 1⟩], e.index <
      ([TransactionState.Pending, TransactionState.TxPending]
        : List TransactionState).length) ∧
    ((History.into_pending [(⟨10, 0⟩ : HistoriedValue Nat), ⟨20, 1⟩]
        [TransactionState.Pending, TransactionState.TxPending]).1
      = History.get [(⟨10, 0⟩ : HistoriedValue Nat), ⟨20, 1⟩]
        [TransactionState.Pending, TransactionState.TxPending] ∧
    getMutValue [(⟨10, 0⟩ : HistoriedValue Nat), ⟨20, 1⟩]
        ([TransactionState.Pending, TransactionState.TxPending], 0)
      = History.get [(⟨10, 0⟩ : HistoriedValue Nat), ⟨20, 1⟩]
        [TransactionState.Pending, TransactionState.TxPending]) :=
  ⟨by decide,
    claim_C1_read_paths_agree Nat [⟨10, 0⟩, ⟨20, 1⟩]
      [TransactionState.Pending, TransactionState.TxPending] 0 (by decide)⟩

theorem get_concat_live (h2 : History V) (l : List TransactionState)
    (x : HistoriedValue V) (hx : stateAt l x.index ≠ TransactionState.Dropped) :
    History.get (h2 ++ [x]) l = some x.value := by
  have hlen : (h2 ++ [x]).length = h2.length + 1 := by
    rw [List.length_append]; rfl
  rw [History.get, hlen]
  have he : (h2 ++ [x]).get? h2.length = some x := List.get?_concat_length h2 x
  cases hst : stateAt l x.index with
  | Dropped => exact absurd hst hx
  | Pending => simp only [getLoop, he, hst]
  | TxPending => simp only [getLoop, he, hst]

theorem setValueAt_concat (A : History V) (x : HistoriedValue V) (v : V) :
    setValueAt (A ++ [x]) A.length v = A ++ [⟨v, x.index⟩] := by
  induction A with
  | nil => rfl
  | cons a A ih =>
    show a :: setValueAt (A ++ [x]) A.length v = a :: (A ++ [⟨v, x.index⟩])
    rw [ih]

/-- C10 (implicit): immediately after `set(states, v)`, `get(states)`
returns `Some v`, provided all recorded layer indices are in range and
the top layer of the snapshot is live (`Pending` or `TxPending`). -/
theorem claim_C10_get_after_set (V : Type) (h : History V)
    (l : List TransactionState) (c : Nat) (v : V)
    (hb : ∀ e ∈ h, e.index < l.length)
    (htop : stateAt l (l.length - 1) = TransactionState.Pending ∨
      stateAt l (l.length - 1) = TransactionState.TxPending) :
    History.get (History.set h (l, c) v) l = some v := by
  have hlive : stateAt l (l.length - 1) ≠ TransactionState.Dropped := by
    rcases htop with hx | hx <;> rw [hx] <;>
      exact fun h2 => TransactionState.noConfusion h2
  cases hfl : firstLiveBelow h l h.length with
  | none =>
    rw [History.set, get_mut_none_char h (l, c) hfl]
    exact get_concat_live [] l ⟨v, l.length - 1⟩ hlive
  | some p =>
    obtain ⟨e, pos, sidx, epos, he, hel, hepos, hspi, heposlive,
      hple, hplt, hgm⟩ := get_mut_some_char h (l, c) p hfl
    rw [History.set, hgm]
    simp only
    by_cases hsi : sidx = l.length - 1
    · rw [if_pos hsi]
      have hlen : (h.take pos).length = pos := List.length_take_of_le (by omega)
      have hsv : setValueAt (h.take pos ++ [⟨e.value, sidx⟩]) pos v
          = h.take pos ++ [⟨v, sidx⟩] := by
        have := setValueAt_concat (h.take pos) ⟨e.value, sidx⟩ v
        rw [hlen] at this
        exact this
      rw [hsv]
      have := get_concat_live (h.take pos) l ⟨v, sidx⟩ (by rw [hsi] at *; exact hlive)
      exact this
    · rw [if_neg hsi]
      exact get_concat_live _ l ⟨v, l.length - 1⟩ hlive

theorem claim_C10_get_after_set_witness :
    (∀ e ∈ [(⟨10, 0⟩ : HistoriedValue Nat)], e.index <
      ([TransactionState.Pending, TransactionState.TxPending]
        : List TransactionState).length) ∧
    (stateAt [TransactionState.Pending, TransactionState.TxPending]
        (([TransactionState.Pending, TransactionState.TxPending]
          : List TransactionState).length - 1) = TransactionState.Pending ∨
      stateAt [TransactionState.Pending, TransactionState.TxPending]
        (([TransactionState.Pending, TransactionState.TxPending]
          : List TransactionState).length - 1) = TransactionState.TxPending) ∧
    History.get (History.set [(⟨10, 0⟩ : HistoriedValue Nat)]
        ([TransactionState.Pending, TransactionState.TxPending], 0) 20)
      [TransactionState.Pending, TransactionState.TxPending] = some 20 :=
  ⟨by decide, by decide,
    claim_C10_get_after_set Nat [⟨10, 0⟩]
      [TransactionState.Pending, TransactionState.TxPending] 0 20
      (by decide) (by decide)⟩

/-! ### The nested-commit example run -/

/-- C7 counterexample: in the run `start_transaction(); set(_, A);
start_transaction(); set(_, B); commit_transaction();
commit_transaction();` (with `A = 100`, `B = 200`), the claimed
conjunction "get() returns B and the sequence length is 1" is false on
the code: `commit_transaction` never touches a key's sequence, so the
length after the run is 2, not 1. -/
theorem claim_C7_counterexample :
    ¬(History.get (applyOps [Op.start, Op.setv 100, Op.start, Op.setv 200,
          Op.commit, Op.commit] (States.start, ([] : History Nat))).2
        (applyOps [Op.start, Op.setv 100, Op.start, Op.setv 200,
          Op.commit, Op.commit] (States.start, ([] : History Nat))).1.layers
        = some 200 ∧
      (applyOps [Op.start, Op.setv 100, Op.start, Op.setv 200,
          Op.commit, Op.commit] (States.start, ([] : History Nat))).2.length
        = 1) := by
  decide

/-- C7 as amended: after the run `start_transaction(); set(_, 100);
start_transaction(); set(_, 200); commit_transaction();
commit_transaction();` from a fresh stack and empty sequence, `get()`
returns the inner write `200` (the folds behave, for reads, as if the
writes had been ordinary writes), but the sequence still holds both
entries — length 2 — because the folds never touch per-key sequences;
the next compacting mutation (`get_mut`) collapses it to the single
entry `(200, 1)`. -/
theorem claim_C7_fold_correctness :
    History.get (applyOps [Op.start, Op.setv 100, Op.start, Op.setv 200,
        Op.commit, Op.commit] (States.start, ([] : History Nat))).2
      (applyOps [Op.start, Op.setv 100, Op.start, Op.setv 200,
        Op.commit, Op.commit] (States.start, ([] : History Nat))).1.layers
      = some 200 ∧
    (applyOps [Op.start, Op.setv 100, Op.start, Op.setv 200,
        Op.commit, Op.commit] (States.start, ([] : History Nat))).2
      = [⟨100, 1⟩, ⟨200, 2⟩] ∧
    (History.get_mut
        (applyOps [Op.start, Op.setv 100, Op.start, Op.setv 200,
          Op.commit, Op.commit] (States.start, ([] : History Nat))).2
        ((applyOps [Op.start, Op.setv 100, Op.start, Op.setv 200,
          Op.commit, Op.commit] (States.start, ([] : History Nat))).1.layers,
         (applyOps [Op.start, Op.setv 100, Op.start, Op.setv 200,
          Op.commit, Op.commit] (States.start, ([] : History Nat))).1.committed)).2
      = [⟨200, 1⟩] := by
  decide

/-! ### The retained compaction slot -/

/-- C4 counterexample: reachable run `start_transaction(); set(_,100);
start_transaction(); commit_transaction(); set(_,200)` leaves two live
entries `(100, layer 1)` and `(200, layer 3)` in the open scope
anchored at layer 1, the newest at array position 1; the compacting
mutation retains one slot at array position 0 — the position of the
entry that anchored the scope — not at the most recent entry's array
position 1 as the claim states. -/
theorem claim_C4_counterexample :
    (applyOps [Op.start, Op.setv 100, Op.start, Op.commit, Op.setv 200]
        (States.start, ([] : History Nat))).2 = [⟨100, 1⟩, ⟨200, 3⟩] ∧
    History.get_mut
        (applyOps [Op.start, Op.setv 100, Op.start, Op.commit, Op.setv 200]
          (States.start, ([] : History Nat))).2
        ((applyOps [Op.start, Op.setv 100, Op.start, Op.commit, Op.setv 200]
          (States.start, ([] : History Nat))).1.layers,
         (applyOps [Op.start, Op.setv 100, Op.start, Op.commit, Op.setv 200]
          (States.start, ([] : History Nat))).1.committed)
      = (some (0, 1), [⟨200, 1⟩]) ∧
    ¬(0 = 1) := by
  decide

/-- C4 as amended: when several live entries fall within one still-open
transaction scope — a newest live entry at position `q` in state
`Pending`, the anchoring `TxPending` entry at position `p`, and between
them only dropped or live in-scope entries — `get_mut` retains exactly
one slot for the scope: it sits at the anchor entry's array position
`p` (not the most recent entry's), holds the most recent entry's
value, and is relabeled with the layer index of the anchor entry. -/
theorem claim_C4_retained_slot (V : Type) (h : History V)
    (l : List TransactionState) (c : Nat) (p q : Nat)
    (ep eq2 : HistoriedValue V)
    (hq : h.get? q = some eq2)
    (hqlen : q < h.length)
    (habove : ∀ j, q < j → j < h.length → ∀ e, h.get? j = some e →
      stateAt l e.index = TransactionState.Dropped)
    (hqst : stateAt l eq2.index = TransactionState.Pending)
    (hp : h.get? p = some ep)
    (hpq : p < q)
    (hpst : stateAt l ep.index = TransactionState.TxPending)
    (hpscope : find_previous_tx_start (l, c) eq2.index ≤ ep.index)
    (hbetween : ∀ j, p < j → j < q → ∀ e, h.get? j = some e →
      stateAt l e.index = TransactionState.Dropped ∨
      (stateAt l e.index = TransactionState.Pending ∧
        find_previous_tx_start (l, c) eq2.index ≤ e.index)) :
    History.get_mut h (l, c)
      = (some (p, ep.index), h.take p ++ [⟨eq2.value, ep.index⟩]) := by
  have h0 : ¬h.length = 0 := by omega
  have hgeInfNone : ∀ n : Nat, geInf n none = false := fun n => rfl
  -- descend from the newest live entry down to the anchor
  have hdesc : ∀ m j, j = p + 1 + m → j ≤ q → ∀ psw,
      getMutLoop h (l, c) j (some (q, eq2.index))
        (some (find_previous_tx_start (l, c) eq2.index)) psw
      = (some (q, eq2.index), some (p, ep.index)) := by
    intro m
    induction m with
    | zero =>
      intro j hj _ psw
      subst hj
      have hgt : geInf ep.index
          (some (find_previous_tx_start (l, c) eq2.index)) = true := by
        simp [geInf, hpscope]
      simp only [getMutLoop, Nat.add_zero, hp, hpst, if_pos hgt]
    | succ m ih =>
      intro j hj hjq psw
      have hj0 : j = (p + 1 + m) + 1 := by omega
      subst hj0
      have hj0q : p + 1 + m < q := by omega
      have hj0len : p + 1 + m < h.length := by omega
      obtain ⟨e, he⟩ := exists_get?_of_lt h (p + 1 + m) hj0len
      rcases hbetween (p + 1 + m) (by omega) hj0q e he with hd | ⟨hpe, hsc⟩
      · simp only [getMutLoop, he, hd]
        exact ih (p + 1 + m) rfl (by omega) psw
      · have hgt : geInf e.index
            (some (find_previous_tx_start (l, c) eq2.index)) = true := by
          simp [geInf, hsc]
        simp only [getMutLoop, he, hpe, if_pos hgt]
        exact ih (p + 1 + m) rfl (by omega) _
  have hstep : getMutLoop h (l, c) h.length none none none
      = (some (q, eq2.index), some (p, ep.index)) := by
    rw [getMutLoop_skip h (l, c) h.length (q + 1) (le_refl _) (by omega)
      (fun j hj1 hj2 e he => habove j hj1 hj2 e he)]
    simp only [getMutLoop, hq, hqst, hgeInfNone, Bool.false_eq_true, if_false,
      if_pos (show (none : Option (Nat × Nat)).isNone = true from rfl)]
    exact hdesc (q - (p + 1)) q (by omega) (le_refl _) none
  unfold History.get_mut
  rw [if_neg h0, hstep]
  simp only
  have hh1 : (if q + 1 < h.length then h.take (q + 1) else h) = h.take (q + 1) := by
    by_cases hx : q + 1 < h.length
    · rw [if_pos hx]
    · rw [if_neg hx, List.take_all_of_le (by omega)]
  have htk : h.take (q + 1) = h.take q ++ [eq2] := by
    rw [List.take_succ, List.get?_eq_getElem?] at *
    rw [hq]
    rfl
  rw [hh1, htk, List.getLast?_concat]
  simp only
  rw [List.dropLast_concat]
  have htp : (h.take q).take p = h.take p := by
    rw [List.take_take]
    have : p ⊓ q = p := by omega
    rw [this]
  rw [htp]

theorem claim_C4_retained_slot_witness :
    (List.get? [(⟨10, 0⟩ : HistoriedValue Nat), ⟨20, 1⟩] 1 = some ⟨20, 1⟩) ∧
    History.get_mut [(⟨10, 0⟩ : HistoriedValue Nat), ⟨20, 1⟩]
        ([TransactionState.TxPending, TransactionState.Pending], 0)
      = (some (0, 0), [⟨20, 0⟩]) :=
  ⟨by decide,
    claim_C4_retained_slot Nat [⟨10, 0⟩, ⟨20, 1⟩]
      [TransactionState.TxPending, TransactionState.Pending] 0 0 1
      ⟨10, 0⟩ ⟨20, 1⟩ (by decide) (by decide)
      (fun j hj1 hj2 e _ => by simp at hj2; omega)
      (by decide) (by decide) (by decide)
      (by decide) (by decide)
      (fun j hj1 hj2 e _ => by omega)⟩

/-! ### The switch slot lies in the live scope of the result -/

theorem geInf_some {n : Nat} {ptx : Option Nat} (hg : geInf n ptx = true) :
    ∃ st2, ptx = some st2 ∧ st2 ≤ n := by
  cases hp : ptx with
  | none => rw [hp] at hg; exact absurd hg (by simp [geInf])
  | some p =>
    rw [hp] at hg
    simp only [geInf, decide_eq_true_eq] at hg
    exact ⟨p, rfl, hg⟩

theorem getMutLoop_strong (h : History V) (s : List TransactionState × Nat) :
    ∀ (i : Nat) (res : Option (Nat × Nat)) (ptx : Option Nat)
      (psw : Option (Nat × Nat)),
    i ≤ h.length →
    (res = none → ptx = none ∧ psw = none) →
    (∀ st2, ptx = some st2 → ∃ ra rb era, res = some (ra, rb) ∧
      st2 = find_previous_tx_start s rb ∧ h.get? ra = some era ∧
      era.index = rb ∧ stateAt s.1 rb = TransactionState.Pending) →
    (∀ a b, res = some (a, b) → i ≤ a) →
    (∀ a b, res = some (a, b) → ∀ j e2, i ≤ j → j < a → h.get? j = some e2 →
      stateAt s.1 e2.index ≠ TransactionState.Dropped →
      find_previous_tx_start s b ≤ e2.index) →
    (∀ a b, psw = some (a, b) → ∃ st2, ptx = some st2 ∧ i ≤ a ∧
      (∃ ra rb, res = some (ra, rb) ∧ a < ra) ∧ st2 ≤ b) →
    (∀ a b, (getMutLoop h s i res ptx psw).2 = some (a, b) →
      ∃ ra rb era, (getMutLoop h s i res ptx psw).1 = some (ra, rb) ∧
        h.get? ra = some era ∧ era.index = rb ∧
        stateAt s.1 rb = TransactionState.Pending ∧
        a < ra ∧ find_previous_tx_start s rb ≤ b ∧
        (∀ j e2, a < j → j < ra → h.get? j = some e2 →
          stateAt s.1 e2.index ≠ TransactionState.Dropped →
          find_previous_tx_start s rb ≤ e2.index)) := by
  intro i
  induction i with
  | zero =>
    intro res ptx psw _ hn hptx hres hr1 hpsw a b hab
    obtain ⟨st2, hst2, ha1, ⟨ra, rb, hres2, ha2⟩, ha3⟩ := hpsw a b hab
    obtain ⟨ra2, rb2, era, hres3, hsteq, hera, heri, hpend⟩ := hptx st2 hst2
    rw [hres2] at hres3
    injection hres3 with hres3
    injection hres3 with hx1 hx2
    subst hx1; subst hx2
    exact ⟨ra, rb, era, hres2, hera, heri, hpend, ha2, hsteq ▸ ha3,
      fun j e2 hj1 hj2 he2 hlv => hr1 ra rb hres2 j e2 (by omega) hj2 he2 hlv⟩
  | succ i ih =>
    intro res ptx psw hi hn hptx hres hr1 hpsw
    have hip : i < h.length := Nat.lt_of_succ_le hi
    obtain ⟨e, he⟩ := exists_get?_of_lt h i hip
    cases hst : stateAt s.1 e.index with
    | Dropped =>
      simp only [getMutLoop, he, hst]
      refine ih res ptx psw (by omega) hn hptx
        (fun a b hab => by have := hres a b hab; omega) ?_ ?_
      · intro a b hab j e2 hj1 hj2 he2 hlv
        rcases Nat.lt_or_ge j (i + 1) with hj3 | hj3
        · have hji : j = i := by omega
          subst hji
          rw [he] at he2
          cases he2
          exact absurd hst hlv
        · exact hr1 a b hab j e2 hj3 hj2 he2 hlv
      · intro a b hab
        obtain ⟨st2, h1, h2, h3, h4⟩ := hpsw a b hab
        exact ⟨st2, h1, by omega, h3, h4⟩
    | TxPending =>
      by_cases hg : geInf e.index ptx = true
      · obtain ⟨st2, hst2, hstle⟩ := geInf_some hg
        obtain ⟨ra, rb, era, hres2, hsteq, hera, heri, hpend⟩ := hptx st2 hst2
        simp only [getMutLoop, he, hst, if_pos hg]
        intro a b hab
        injection hab with hab
        injection hab with hx1 hx2
        subst hx1; subst hx2
        have hra : i + 1 ≤ ra := hres ra rb hres2
        refine ⟨ra, rb, era, hres2, hera, heri, hpend, by omega,
          hsteq ▸ hstle, ?_⟩
        intro j e2 hj1 hj2 he2 hlv
        exact hr1 ra rb hres2 j e2 (by omega) hj2 he2 hlv
      · cases hresv : res with
        | none =>
          obtain ⟨hptx0, hpsw0⟩ := hn hresv
          subst hresv
          simp only [getMutLoop, he, hst, if_neg hg,
            if_pos (show (none : Option (Nat × Nat)).isNone = true from rfl)]
          intro a b hab
          rw [hpsw0] at hab
          cases hab
        | some r =>
          subst hresv
          simp only [getMutLoop, he, hst, if_neg hg,
            if_neg (show ¬((some r).isNone = true) from by simp)]
          intro a b hab
          obtain ⟨st2, hst2, ha1, ⟨ra, rb, hres2, ha2⟩, ha3⟩ := hpsw a b hab
          obtain ⟨ra2, rb2, era, hres3, hsteq, hera, heri, hpend⟩ := hptx st2 hst2
          rw [hres2] at hres3
          injection hres3 with hres3
          injection hres3 with hx1 hx2
          subst hx1; subst hx2
          refine ⟨ra, rb, era, hres2, hera, heri, hpend, ha2, hsteq ▸ ha3, ?_⟩
          intro j e2 hj1 hj2 he2 hlv
          exact hr1 ra rb hres2 j e2 (by omega) hj2 he2 hlv
    | Pending =>
      by_cases hg : geInf e.index ptx = true
      · obtain ⟨st2, hst2, hstle⟩ := geInf_some hg
        obtain ⟨ra, rb, era, hres2, hsteq, hera, heri, hpend⟩ := hptx st2 hst2
        have hra : i + 1 ≤ ra := hres ra rb hres2
        simp only [getMutLoop, he, hst, if_pos hg]
        refine ih res ptx (some (i, e.index)) (by omega)
          (fun hx => by rw [hx] at hres2; cases hres2) hptx
          (fun a b hab => by have := hres a b hab; omega) ?_ ?_
        · intro a b hab j e2 hj1 hj2 he2 hlv
          rw [hres2] at hab
          injection hab with hab
          injection hab with hx1 hx2
          subst hx1; subst hx2
          rcases Nat.lt_or_ge j (i + 1) with hj3 | hj3
          · have hji : j = i := by omega
            subst hji
            rw [he] at he2
            cases he2
            exact hsteq ▸ hstle
          · exact hr1 ra rb hres2 j e2 hj3 hj2 he2 hlv
        · intro a b hab
          injection hab with hab
          injection hab with hx1 hx2
          subst hx1; subst hx2
          exact ⟨st2, hst2, le_refl _, ⟨ra, rb, hres2, by omega⟩, hstle⟩
      · cases hresv : res with
        | none =>
          obtain ⟨hptx0, hpsw0⟩ := hn hresv
          subst hresv
          subst hptx0
          subst hpsw0
          simp only [getMutLoop, he, hst, if_neg hg,
            if_pos (show (none : Option (Nat × Nat)).isNone = true from rfl)]
          refine ih (some (i, e.index))
            (some (find_previous_tx_start s e.index)) none (by omega) ?_ ?_ ?_ ?_ ?_
          · intro hx; cases hx
          · intro st2 hst2
            injection hst2 with hst2
            exact ⟨i, e.index, e, rfl, hst2.symm, he, rfl, hst⟩
          · intro a b hab
            injection hab with hab
            injection hab with hx1 hx2
            subst hx1
            exact le_refl _
          · intro a b hab j e2 hj1 hj2 he2 hlv
            injection hab with hab
            injection hab with hx1 hx2
            subst hx1; subst hx2
            omega
          · intro a b hab; cases hab
        | some r =>
          subst hresv
          simp only [getMutLoop, he, hst, if_neg hg,
            if_neg (show ¬((some r).isNone = true) from by simp)]
          intro a b hab
          obtain ⟨st2, hst2, ha1, ⟨ra, rb, hres2, ha2⟩, ha3⟩ := hpsw a b hab
          obtain ⟨ra2, rb2, era, hres3, hsteq, hera, heri, hpend⟩ := hptx st2 hst2
          rw [hres2] at hres3
          injection hres3 with hres3
          injection hres3 with hx1 hx2
          subst hx1; subst hx2
          refine ⟨ra, rb, era, hres2, hera, heri, hpend, ha2, hsteq ▸ ha3, ?_⟩
          intro j e2 hj1 hj2 he2 hlv
          exact hr1 ra rb hres2 j e2 (by omega) hj2 he2 hlv

theorem sortedIdx_get? {h : History V} (hs : sortedIdx h) {p q : Nat}
    {e1 e2 : HistoriedValue V} (hpq : p < q)
    (h1 : h.get? p = some e1) (h2 : h.get? q = some e2) :
    e1.index < e2.index := by
  have hq : q < h.length := by
    by_contra hx
    rw [List.get?_eq_none.mpr (by omega)] at h2
    cases h2
  have hp : p < h.length := by omega
  have hg1 : List.get h ⟨p, hp⟩ = e1 := by
    have := List.get?_eq_get hp
    rw [h1] at this
    injection this with this
    exact this.symm
  have hg2 : List.get h ⟨q, hq⟩ = e2 := by
    have := List.get?_eq_get hq
    rw [h2] at this
    injection this with this
    exact this.symm
  have := List.pairwise_iff_get.mp hs ⟨p, hp⟩ ⟨q, hq⟩ hpq
  rw [hg1, hg2] at this
  exact this

theorem get_mut_switch_facts (h : History V) (s : List TransactionState × Nat)
    (p : Nat) (e : HistoriedValue V)
    (hfl : firstLiveBelow h s.1 h.length = some p) (he : h.get? p = some e)
    (pos sidx : Nat) (h1 : History V)
    (hgm : History.get_mut h s = (some (pos, sidx), h1)) :
    (pos = p ∧ sidx = e.index) ∨
    (pos < p ∧ stateAt s.1 e.index = TransactionState.Pending ∧
      find_previous_tx_start s e.index ≤ sidx ∧
      (∀ j e2, pos < j → j < p → h.get? j = some e2 →
        stateAt s.1 e2.index ≠ TransactionState.Dropped →
        find_previous_tx_start s e.index ≤ e2.index)) := by
  obtain ⟨hp1, ⟨e2, he2, hlive⟩, habove⟩ :=
    firstLiveBelow_some h s.1 h.length p (le_refl _) hfl
  obtain ⟨e3, he3, hres0⟩ := (getMutLoop_result h s (le_refl _)).2 p hfl
  rw [he] at he2 he3
  cases he2
  cases he3
  have h0 : ¬h.length = 0 := by omega
  rcases hloop : getMutLoop h s h.length none none none with ⟨res, psw⟩
  rw [hloop] at hres0
  simp only at hres0
  subst hres0
  have hgm2 := hgm
  unfold History.get_mut at hgm2
  rw [if_neg h0, hloop] at hgm2
  simp only at hgm2
  cases psw with
  | none =>
    have : pos = p ∧ sidx = e.index := by
      have := congrArg Prod.fst hgm2
      simp only at this
      injection this with this
      injection this with hx1 hx2
      exact ⟨by omega, by omega⟩
    exact Or.inl this
  | some sw =>
    rcases sw with ⟨sp, spi⟩
    have hps : pos = sp ∧ sidx = spi := by
      rcases hlast : (if p + 1 < h.length then h.take (p + 1) else h).getLast? with _ | v
      · rw [hlast] at hgm2
        have := congrArg Prod.fst hgm2
        simp only at this
        injection this with this
        injection this with hx1 hx2
        exact ⟨by omega, by omega⟩
      · rw [hlast] at hgm2
        have := congrArg Prod.fst hgm2
        simp only at this
        injection this with this
        injection this with hx1 hx2
        exact ⟨by omega, by omega⟩
    obtain ⟨hps1, hps2⟩ := hps
    subst hps1
    subst hps2
    have hstrong := getMutLoop_strong h s h.length none none none (le_refl _)
      (fun _ => ⟨rfl, rfl⟩) (fun st2 hst2 => by cases hst2)
      (fun a b hab => by cases hab) (fun a b hab => by cases hab)
      (fun a b hab => by cases hab) pos sidx (by rw [hloop])
    rw [hloop] at hstrong
    simp only at hstrong
    obtain ⟨ra, rb, era, hres2, hera, heri, hpend, hlt, hstle, hregion⟩ := hstrong
    injection hres2 with hres2
    injection hres2 with hx1 hx2
    subst hx1
    subst hx2
    rw [he] at hera
    cases hera
    exact Or.inr ⟨hlt, heri ▸ hpend, hstle, fun j e4 hj1 hj2 he4 hlv =>
      hregion j e4 hj1 hj2 he4 hlv⟩

/-! ### The masked read: `get` restricted below a layer boundary -/

theorem maskedGetLoop_congr_prefix (k : Nat) (h h2 : History V)
    (l : List TransactionState) :
    ∀ i, (∀ j, j < i → h.get? j = h2.get? j) →
    maskedGetLoop k h l i = maskedGetLoop k h2 l i := by
  intro i
  induction i with
  | zero => intro _; rfl
  | succ i ih =>
    intro hc
    have hji : h.get? i = h2.get? i := hc i (Nat.lt_succ_self i)
    cases he2 : h2.get? i with
    | none =>
      have he : h.get? i = none := by rw [hji, he2]
      simp only [maskedGetLoop, he, he2]
    | some e =>
      have he : h.get? i = some e := by rw [hji, he2]
      by_cases hk : k ≤ e.index
      · simp only [maskedGetLoop, he, he2, if_pos hk]
        exact ih (fun j hj => hc j (by omega))
      · cases hst : stateAt l e.index with
        | Dropped =>
          simp only [maskedGetLoop, he, he2, if_neg hk, hst]
          exact ih (fun j hj => hc j (by omega))
        | Pending => simp only [maskedGetLoop, he, he2, if_neg hk, hst]
        | TxPending => simp only [maskedGetLoop, he, he2, if_neg hk, hst]

theorem maskedGetLoop_take (k : Nat) (h : History V) (l : List TransactionState)
    (m : Nat) : ∀ i, i ≤ m → maskedGetLoop k (h.take m) l i = maskedGetLoop k h l i := by
  intro i hi
  apply maskedGetLoop_congr_prefix
  intro j hj
  rw [List.get?_take (by omega)]

theorem maskedGetLoop_congr_layers (k : Nat) (h : History V)
    (l l2 : List TransactionState)
    (hl : ∀ j, j < k → stateAt l j = stateAt l2 j) :
    ∀ i, maskedGetLoop k h l i = maskedGetLoop k h l2 i := by
  intro i
  induction i with
  | zero => rfl
  | succ i ih =>
    cases he : h.get? i with
    | none => simp only [maskedGetLoop, he]
    | some e =>
      by_cases hk : k ≤ e.index
      · simp only [maskedGetLoop, he, if_pos hk]
        exact ih
      · have hst2 : stateAt l2 e.index = stateAt l e.index :=
          (hl e.index (by omega)).symm
        cases hst : stateAt l e.index with
        | Dropped =>
          rw [hst] at hst2
          simp only [maskedGetLoop, he, if_neg hk, hst, hst2]
          exact ih
        | Pending =>
          rw [hst] at hst2
          simp only [maskedGetLoop, he, if_neg hk, hst, hst2]
        | TxPending =>
          rw [hst] at hst2
          simp only [maskedGetLoop, he, if_neg hk, hst, hst2]

theorem maskedGet_congr_layers (k : Nat) (h : History V)
    (l l2 : List TransactionState)
    (hl : ∀ j, j < k → stateAt l j = stateAt l2 j) :
    maskedGet k h l = maskedGet k h l2 :=
  maskedGetLoop_congr_layers k h l l2 hl h.length

theorem maskedGet_concat_skip (k : Nat) (h : History V)
    (l : List TransactionState) (x : HistoriedValue V) (hx : k ≤ x.index) :
    maskedGet k (h ++ [x]) l = maskedGet k h l := by
  unfold maskedGet
  have hlen : (h ++ [x]).length = h.length + 1 := by
    rw [List.length_append]
    rfl
  rw [hlen]
  have he : (h ++ [x]).get? h.length = some x := List.get?_concat_length h x
  simp only [maskedGetLoop, he, if_pos hx]
  apply maskedGetLoop_congr_prefix
  intro j hj
  exact List.get?_append hj

theorem maskedGet_concat_live (k : Nat) (h : History V)
    (l : List TransactionState) (x : HistoriedValue V) (hxk : x.index < k)
    (hx : stateAt l x.index ≠ TransactionState.Dropped) :
    maskedGet k (h ++ [x]) l = some x.value := by
  unfold maskedGet
  have hlen : (h ++ [x]).length = h.length + 1 := by
    rw [List.length_append]
    rfl
  rw [hlen]
  have he : (h ++ [x]).get? h.length = some x := List.get?_concat_length h x
  cases hst : stateAt l x.index with
  | Dropped => exact absurd hst hx
  | Pending =>
    simp only [maskedGetLoop, he, if_neg (show ¬(k ≤ x.index) from by omega), hst]
  | TxPending =>
    simp only [maskedGetLoop, he, if_neg (show ¬(k ≤ x.index) from by omega), hst]

theorem maskedGetLoop_skip (k : Nat) (h : History V) (l : List TransactionState) :
    ∀ (i m : Nat), i ≤ h.length → m ≤ i →
    (∀ j, m ≤ j → j < i → ∀ e, h.get? j = some e →
      k ≤ e.index ∨ stateAt l e.index = TransactionState.Dropped) →
    maskedGetLoop k h l i = maskedGetLoop k h l m := by
  intro i
  induction i with
  | zero => intro m _ hm _; rw [Nat.le_zero.mp hm]
  | succ i ih =>
    intro m hi hm hdrop
    rcases Nat.lt_succ_iff_lt_or_eq.mp (Nat.lt_succ_of_le hm) with hm2 | hm2
    · have hip : i < h.length := Nat.lt_of_succ_le hi
      obtain ⟨ei, hei⟩ := exists_get?_of_lt h i hip
      have hd := hdrop i (by omega) (Nat.lt_succ_self i) ei hei
      have hstep : maskedGetLoop k h l (i + 1) = maskedGetLoop k h l i := by
        by_cases hk : k ≤ ei.index
        · simp only [maskedGetLoop, hei, if_pos hk]
        · rcases hd with hd | hd
          · exact absurd hd hk
          · simp only [maskedGetLoop, hei, if_neg hk, hd]
      rw [hstep]
      exact ih m (by omega) (by omega)
        (fun j hj1 hj2 e he => hdrop j hj1 (by omega) e he)
    · rw [hm2]

theorem maskedGetLoop_all_skipped (k : Nat) (h : History V)
    (l : List TransactionState) (i : Nat) (hi : i ≤ h.length)
    (hdrop : ∀ j, j < i → ∀ e, h.get? j = some e →
      k ≤ e.index ∨ stateAt l e.index = TransactionState.Dropped) :
    maskedGetLoop k h l i = none := by
  rw [maskedGetLoop_skip k h l i 0 hi (Nat.zero_le _)
    (fun j hj1 hj2 e he => hdrop j hj2 e he)]
  rfl

theorem getLoop_eq_masked (k : Nat) (h : History V) (l : List TransactionState)
    (hdead : ∀ e ∈ h, k ≤ e.index →
      stateAt l e.index = TransactionState.Dropped) :
    ∀ i, getLoop h l i = maskedGetLoop k h l i := by
  intro i
  induction i with
  | zero => rfl
  | succ i ih =>
    cases he : h.get? i with
    | none => simp only [getLoop, maskedGetLoop, he]
    | some e =>
      by_cases hk : k ≤ e.index
      · have hd : stateAt l e.index = TransactionState.Dropped :=
          hdead e (List.get?_mem he) hk
        simp only [getLoop, maskedGetLoop, he, if_pos hk, hd]
        exact ih
      · cases hst : stateAt l e.index with
        | Dropped =>
          simp only [getLoop, maskedGetLoop, he, if_neg hk, hst]
          exact ih
        | Pending => simp only [getLoop, maskedGetLoop, he, if_neg hk, hst]
        | TxPending => simp only [getLoop, maskedGetLoop, he, if_neg hk, hst]

theorem get_eq_masked_of_dead_above (k : Nat) (h : History V)
    (l : List TransactionState)
    (hdead : ∀ e ∈ h, k ≤ e.index →
      stateAt l e.index = TransactionState.Dropped) :
    History.get h l = maskedGet k h l :=
  getLoop_eq_masked k h l hdead h.length

theorem get_eq_masked_of_bound (k : Nat) (h : History V)
    (l : List TransactionState) (hb : boundedIdx h k) :
    History.get h l = maskedGet k h l :=
  get_eq_masked_of_dead_above k h l
    (fun e he hk => absurd (hb e he) (by omega))

theorem maskedGet_get_mut (h : History V) (l : List TransactionState) (c k : Nat)
    (hk : stateAt l k = TransactionState.TxPending) (hck : c ≤ k)
    (hsort : sortedIdx h) :
    maskedGet k (History.get_mut h (l, c)).2 l = maskedGet k h l := by
  cases hfl : firstLiveBelow h l h.length with
  | none =>
    rw [get_mut_none_char h (l, c) hfl]
    show maskedGet k ([] : History V) l = maskedGet k h l
    have hall := firstLiveBelow_none h l h.length (le_refl _) hfl
    rw [show maskedGet k ([] : History V) l = none from rfl]
    exact (maskedGetLoop_all_skipped k h l h.length (le_refl _)
      (fun j hj e he => Or.inr (hall j hj e he))).symm
  | some p =>
    obtain ⟨e, pos, sidx, epos, he, helive, hepos, heposidx, heposlive,
      hposp, hplen, hgm⟩ := get_mut_some_char h (l, c) p hfl
    obtain ⟨hp1, ⟨e2, he2, hlive2⟩, habove⟩ :=
      firstLiveBelow_some h l h.length p (le_refl _) hfl
    rw [he] at he2
    cases he2
    have hrhs : maskedGet k h l = maskedGetLoop k h l (p + 1) :=
      maskedGetLoop_skip k h l h.length (p + 1) (le_refl _) (by omega)
        (fun j hj1 hj2 e3 he3 => Or.inr (habove j (by omega) hj2 e3 he3))
    rw [hgm]
    show maskedGet k (h.take pos ++ [⟨e.value, sidx⟩]) l = maskedGet k h l
    have htl : (h.take pos).length = pos := by
      rw [List.length_take]; omega
    rcases get_mut_switch_facts h (l, c) p e hfl he pos sidx _ hgm with
      ⟨hpp, hss⟩ | ⟨hlt, hpend, hfle, hregion⟩
    · subst hpp
      subst hss
      by_cases hek : e.index < k
      · rw [maskedGet_concat_live k (h.take pos) l ⟨e.value, e.index⟩ hek hlive2,
          hrhs]
        cases hst : stateAt l e.index with
        | Dropped => exact absurd hst hlive2
        | Pending =>
          simp only [maskedGetLoop, he,
            if_neg (show ¬(k ≤ e.index) from by omega), hst]
        | TxPending =>
          simp only [maskedGetLoop, he,
            if_neg (show ¬(k ≤ e.index) from by omega), hst]
      · rw [maskedGet_concat_skip k (h.take pos) l ⟨e.value, e.index⟩
            (by show k ≤ e.index; omega),
          hrhs]
        have hstep : maskedGetLoop k h l (pos + 1) = maskedGetLoop k h l pos := by
          simp only [maskedGetLoop, he, if_pos (show k ≤ e.index from by omega)]
        rw [hstep]
        unfold maskedGet
        rw [htl]
        exact maskedGetLoop_take k h l pos pos (le_refl _)
    · by_cases hek : e.index < k
      · have hsidx : sidx < k := by
          have := sortedIdx_get? hsort hlt hepos he
          omega
        have hxlive : stateAt l sidx ≠ TransactionState.Dropped := by
          rw [← heposidx]
          exact heposlive
        rw [maskedGet_concat_live k (h.take pos) l ⟨e.value, sidx⟩ hsidx hxlive,
          hrhs]
        cases hst : stateAt l e.index with
        | Dropped => exact absurd hst hlive2
        | Pending =>
          simp only [maskedGetLoop, he,
            if_neg (show ¬(k ≤ e.index) from by omega), hst]
        | TxPending =>
          simp only [maskedGetLoop, he,
            if_neg (show ¬(k ≤ e.index) from by omega), hst]
      · have hkgt : k < e.index := by
          have hne : e.index ≠ k := by
            intro hx
            rw [hx, hk] at hpend
            exact TransactionState.noConfusion hpend
          omega
        have hfk : k ≤ find_previous_tx_start (l, c) e.index :=
          find_previous_tx_start_greatest (l, c) hck hkgt hk
        have hsk : k ≤ sidx := le_trans hfk hfle
        rw [maskedGet_concat_skip k (h.take pos) l ⟨e.value, sidx⟩ hsk, hrhs]
        have hstep : maskedGetLoop k h l (p + 1) = maskedGetLoop k h l p := by
          simp only [maskedGetLoop, he, if_pos (show k ≤ e.index from by omega)]
        have hskip2 : maskedGetLoop k h l p = maskedGetLoop k h l pos := by
          apply maskedGetLoop_skip k h l p pos (by omega) (by omega)
          intro j hj1 hj2 e3 he3
          rcases Nat.eq_or_lt_of_le hj1 with hj3 | hj3
          · rw [← hj3, hepos] at he3
            cases he3
            exact Or.inl (by omega)
          · by_cases hd : stateAt l e3.index = TransactionState.Dropped
            · exact Or.inr hd
            · exact Or.inl (le_trans hfk (hregion j e3 hj3 hj2 he3 hd))
        rw [hstep, hskip2]
        unfold maskedGet
        rw [htl]
        exact maskedGetLoop_take k h l pos pos (le_refl _)

theorem mem_take_get? (h : History V) (pos : Nat) (y : HistoriedValue V)
    (hy : y ∈ h.take pos) : ∃ j, j < pos ∧ h.get? j = some y := by
  obtain ⟨j, hj⟩ := List.mem_iff_get?.mp hy
  have hjlt : j < pos := by
    by_contra hx
    have hlen : (h.take pos).length ≤ j := by
      rw [List.length_take]; omega
    rw [List.get?_eq_none.mpr hlen] at hj
    cases hj
  refine ⟨j, hjlt, ?_⟩
  rw [← List.get?_take hjlt]
  exact hj

theorem sorted_bounded_concat (A : History V) (x : HistoriedValue V) (n : Nat)
    (hA : sortedIdx A) (hforall : ∀ y ∈ A, y.index < x.index)
    (hbA : boundedIdx A n) (hx : x.index < n) :
    sortedIdx (A ++ [x]) ∧ boundedIdx (A ++ [x]) n := by
  constructor
  · unfold sortedIdx
    rw [List.pairwise_append]
    refine ⟨hA, List.pairwise_singleton _ _, ?_⟩
    intro a ha b hb
    rw [List.mem_singleton.mp hb]
    exact hforall a ha
  · intro y hy
    rcases List.mem_append.mp hy with hy | hy
    · exact hbA y hy
    · rw [List.mem_singleton.mp hy]
      exact hx

theorem set_preserves (h : History V) (l : List TransactionState) (c : Nat)
    (v : V) (hsort : sortedIdx h) (hb : boundedIdx h l.length)
    (hl : 0 < l.length) :
    sortedIdx (History.set h (l, c) v) ∧
    boundedIdx (History.set h (l, c) v) l.length := by
  cases hfl : firstLiveBelow h l h.length with
  | none =>
    have hgm := get_mut_none_char h (l, c) hfl
    have hset : History.set h (l, c) v = [] ++ [⟨v, l.length - 1⟩] := by
      unfold History.set
      rw [hgm]
    rw [hset]
    exact sorted_bounded_concat [] ⟨v, l.length - 1⟩ l.length
      List.Pairwise.nil (fun y hy => absurd hy (List.not_mem_nil y))
      (fun y hy => absurd hy (List.not_mem_nil y))
      (show l.length - 1 < l.length from by omega)
  | some p =>
    obtain ⟨e, pos, sidx, epos, he, helive, hepos, heposidx, heposlive,
      hposp, hplen, hgm⟩ := get_mut_some_char h (l, c) p hfl
    have htl : (h.take pos).length = pos := by
      rw [List.length_take]; omega
    have hps : sortedIdx (h.take pos) :=
      List.Pairwise.sublist (List.take_sublist pos h) hsort
    have hplt : ∀ y ∈ h.take pos, y.index < sidx := by
      intro y hy
      obtain ⟨j, hj1, hj2⟩ := mem_take_get? h pos y hy
      have := sortedIdx_get? hsort hj1 hj2 hepos
      omega
    have hpb : boundedIdx (h.take pos) l.length :=
      fun y hy => hb y (List.take_subset pos h hy)
    have hsidxlen : sidx < l.length := by
      have := hb epos (List.get?_mem hepos)
      omega
    have hset : History.set h (l, c) v
        = if sidx = l.length - 1 then
            setValueAt (h.take pos ++ [⟨e.value, sidx⟩]) pos v
          else (h.take pos ++ [⟨e.value, sidx⟩]) ++ [⟨v, l.length - 1⟩] := by
      unfold History.set
      rw [hgm]
    by_cases hsx : sidx = l.length - 1
    · have hsc : setValueAt (h.take pos ++ [⟨e.value, sidx⟩]) pos v
          = h.take pos ++ [⟨v, sidx⟩] := by
        have hx := setValueAt_concat (h.take pos) ⟨e.value, sidx⟩ v
        rw [htl] at hx
        exact hx
      rw [hset, if_pos hsx, hsc]
      exact sorted_bounded_concat (h.take pos) ⟨v, sidx⟩ l.length hps
        (fun y hy => hplt y hy) hpb hsidxlen
    · rw [hset, if_neg hsx]
      have h1facts := sorted_bounded_concat (h.take pos) ⟨e.value, sidx⟩
        l.length hps (fun y hy => hplt y hy) hpb hsidxlen
      refine sorted_bounded_concat _ ⟨v, l.length - 1⟩ l.length h1facts.1
        ?_ h1facts.2 (show l.length - 1 < l.length from by omega)
      intro y hy
      rcases List.mem_append.mp hy with hy | hy
      · have := hplt y hy
        show y.index < l.length - 1
        omega
      · rw [List.mem_singleton.mp hy]
        show sidx < l.length - 1
        omega

theorem maskedGet_set (h : History V) (l : List TransactionState) (c k : Nat)
    (v : V) (hk : stateAt l k = TransactionState.TxPending) (hck : c ≤ k)
    (hsort : sortedIdx h) :
    maskedGet k (History.set h (l, c) v) l = maskedGet k h l := by
  have hklen : k < l.length := stateAt_lt_length (by
    rw [hk]
    exact fun hx => TransactionState.noConfusion hx)
  have hgmut := maskedGet_get_mut h l c k hk hck hsort
  cases hfl : firstLiveBelow h l h.length with
  | none =>
    have hgm := get_mut_none_char h (l, c) hfl
    have hset : History.set h (l, c) v = [] ++ [⟨v, l.length - 1⟩] := by
      unfold History.set
      rw [hgm]
    rw [hgm] at hgmut
    have hgmut2 : maskedGet k ([] : History V) l = maskedGet k h l := hgmut
    rw [hset, maskedGet_concat_skip k [] l ⟨v, l.length - 1⟩
      (show k ≤ (⟨v, l.length - 1⟩ : HistoriedValue V).index from by
        show k ≤ l.length - 1
        omega)]
    exact hgmut2
  | some p =>
    obtain ⟨e, pos, sidx, epos, he, helive, hepos, heposidx, heposlive,
      hposp, hplen, hgm⟩ := get_mut_some_char h (l, c) p hfl
    have htl : (h.take pos).length = pos := by
      rw [List.length_take]; omega
    rw [hgm] at hgmut
    have hgmut2 : maskedGet k (h.take pos ++ [⟨e.value, sidx⟩]) l
        = maskedGet k h l := hgmut
    have hset : History.set h (l, c) v
        = if sidx = l.length - 1 then
            setValueAt (h.take pos ++ [⟨e.value, sidx⟩]) pos v
          else (h.take pos ++ [⟨e.value, sidx⟩]) ++ [⟨v, l.length - 1⟩] := by
      unfold History.set
      rw [hgm]
    by_cases hsx : sidx = l.length - 1
    · have hsk : k ≤ sidx := by omega
      have hsc : setValueAt (h.take pos ++ [⟨e.value, sidx⟩]) pos v
          = h.take pos ++ [⟨v, sidx⟩] := by
        have hx := setValueAt_concat (h.take pos) ⟨e.value, sidx⟩ v
        rw [htl] at hx
        exact hx
      rw [hset, if_pos hsx, hsc,
        maskedGet_concat_skip k (h.take pos) l ⟨v, sidx⟩
          (show k ≤ (⟨v, sidx⟩ : HistoriedValue V).index from hsk),
        ← maskedGet_concat_skip k (h.take pos) l ⟨e.value, sidx⟩
          (show k ≤ (⟨e.value, sidx⟩ : HistoriedValue V).index from hsk)]
      exact hgmut2
    · rw [hset, if_neg hsx]
      have hskip := maskedGet_concat_skip k (h.take pos ++ [⟨e.value, sidx⟩]) l
        ⟨v, l.length - 1⟩ (by show k ≤ l.length - 1; omega)
      rw [hskip]
      exact hgmut2

theorem greatestTxBelow_eq_some (l : List TransactionState) (c n j : Nat)
    (h1 : c ≤ j) (h2 : j < n) (h3 : stateAt l j = TransactionState.TxPending)
    (h4 : ∀ m, j < m → m < n → stateAt l m ≠ TransactionState.TxPending) :
    greatestTxBelow l c n = some j := by
  obtain ⟨j2, hj2, hle⟩ := greatestTxBelow_isSome h1 h2 h3
  obtain ⟨g1, g2, g3, g4⟩ := greatestTxBelow_some hj2
  rcases Nat.eq_or_lt_of_le hle with he | hlt2
  · rw [hj2, ← he]
  · exact absurd g3 (h4 j2 hlt2 g2)

theorem runInv_setv (k c : Nat) (base : List TransactionState) (v0 : Option V)
    (ts : List Nat) (s : States) (h : History V) (v : V)
    (hinv : RunInv k c base v0 ts s h) :
    RunInv k c base v0 ts s (History.set h (s.layers, s.committed) v) := by
  obtain ⟨⟨hcom, hck, hkl, hbelow, hktx, hpair, helem, hiff⟩, hsort, hb, hm⟩ := hinv
  subst hcom
  obtain ⟨hs2, hb2⟩ := set_preserves h s.layers s.committed v hsort hb (by omega)
  refine ⟨⟨rfl, hck, hkl, hbelow, hktx, hpair, helem, hiff⟩, hs2, hb2, ?_⟩
  rw [maskedGet_set h s.layers s.committed k v hktx hck hsort]
  exact hm

theorem runInv_start (k c : Nat) (base : List TransactionState) (v0 : Option V)
    (ts : List Nat) (s : States) (h : History V)
    (hinv : RunInv k c base v0 ts s h) :
    RunInv k c base v0 (ts ++ [s.layers.length]) s.start_transaction h := by
  obtain ⟨⟨hcom, hck, hkl, hbelow, hktx, hpair, helem, hiff⟩, hsort, hb, hm⟩ := hinv
  subst hcom
  have hlen : (s.start_transaction).layers.length = s.layers.length + 1 := by
    show (s.layers ++ [TransactionState.TxPending]).length = s.layers.length + 1
    rw [List.length_append]
    rfl
  have hsame : ∀ i, i < s.layers.length →
      stateAt (s.start_transaction).layers i = stateAt s.layers i := by
    intro i hi
    exact stateAt_append_left hi
  refine ⟨⟨rfl, hck, ?_, ?_, ?_, ?_, ?_, ?_⟩, hsort, ?_, ?_⟩
  · rw [hlen]; omega
  · intro i hi
    rw [hsame i (by omega)]
    exact hbelow i hi
  · rw [hsame k hkl]
    exact hktx
  · rw [List.pairwise_append]
    refine ⟨hpair, List.pairwise_singleton _ _, ?_⟩
    intro a ha b hb
    rw [List.mem_singleton.mp hb]
    exact (helem a ha).2
  · intro x hx
    rcases List.mem_append.mp hx with hx | hx
    · obtain ⟨h1, h2⟩ := helem x hx
      rw [hlen]
      exact ⟨h1, by omega⟩
    · rw [List.mem_singleton.mp hx, hlen]
      exact ⟨hkl, by omega⟩
  · intro i hi1 hi2
    rw [hlen] at hi2
    by_cases hi3 : i = s.layers.length
    · subst hi3
      have : stateAt (s.start_transaction).layers s.layers.length
          = TransactionState.TxPending := stateAt_concat_self s.layers _
      rw [this]
      constructor
      · intro _
        exact List.mem_append.mpr (Or.inr (List.mem_singleton.mpr rfl))
      · intro _
        rfl
    · rw [hsame i (by omega)]
      rw [hiff i hi1 (by omega)]
      constructor
      · intro hx
        exact List.mem_append.mpr (Or.inl hx)
      · intro hx
        rcases List.mem_append.mp hx with hx | hx
        · exact hx
        · exact absurd (List.mem_singleton.mp hx) hi3
  · intro e he
    rw [hlen]
    have := hb e he
    omega
  · rw [maskedGet_congr_layers k h (s.start_transaction).layers s.layers
      (fun j hj => hsame j (by omega))]
    exact hm

theorem runInv_commit (k c : Nat) (base : List TransactionState) (v0 : Option V)
    (ts0 : List Nat) (j : Nat) (s : States) (h : History V)
    (hinv : RunInv k c base v0 (ts0 ++ [j]) s h) :
    RunInv k c base v0 ts0 s.commit_transaction h := by
  obtain ⟨⟨hcom, hck, hkl, hbelow, hktx, hpair, helem, hiff⟩, hsort, hb, hm⟩ := hinv
  subst hcom
  have hjmem : j ∈ ts0 ++ [j] :=
    List.mem_append.mpr (Or.inr (List.mem_singleton.mpr rfl))
  obtain ⟨hkj, hjlen⟩ := helem j hjmem
  have hjtx : stateAt s.layers j = TransactionState.TxPending :=
    (hiff j hkj hjlen).mpr hjmem
  have hmax : ∀ x ∈ ts0, x < j := by
    have hx := List.pairwise_append.mp hpair
    exact fun x hx2 => hx.2.2 x hx2 j (List.mem_singleton.mpr rfl)
  have habove : ∀ m, j < m → m < s.layers.length →
      stateAt s.layers m ≠ TransactionState.TxPending := by
    intro m hm1 hm2 hm3
    have := (hiff m (by omega) hm2).mp hm3
    rcases List.mem_append.mp this with hx | hx
    · have := hmax m hx
      omega
    · rw [List.mem_singleton.mp hx] at hm1
      omega
  have hgt : greatestTxBelow s.layers s.committed s.layers.length = some j :=
    greatestTxBelow_eq_some s.layers s.committed s.layers.length j (by omega)
      hjlen hjtx habove
  have hclen : (commitTxLoop s.committed s.layers s.layers.length).length
      = s.layers.length :=
    commitTxLoop_length s.committed s.layers.length s.layers
  have hcst : ∀ m, stateAt (commitTxLoop s.committed s.layers s.layers.length) m
      = if m = j then TransactionState.Pending else stateAt s.layers m := by
    intro m
    have hx := commitTxLoop_spec s.committed s.layers.length s.layers (le_refl _) m
    rw [hgt] at hx
    exact hx
  have hlen : (s.commit_transaction).layers.length = s.layers.length + 1 := by
    show (commitTxLoop s.committed s.layers s.layers.length
      ++ [TransactionState.Pending]).length = s.layers.length + 1
    rw [List.length_append, hclen]
    rfl
  have hsame : ∀ i, i < s.layers.length → i ≠ j →
      stateAt (s.commit_transaction).layers i = stateAt s.layers i := by
    intro i hi hij
    show stateAt (commitTxLoop s.committed s.layers s.layers.length
      ++ [TransactionState.Pending]) i = stateAt s.layers i
    rw [stateAt_append_left (by omega), hcst i, if_neg hij]
  have htop : stateAt (s.commit_transaction).layers s.layers.length
      = TransactionState.Pending := by
    show stateAt (commitTxLoop s.committed s.layers s.layers.length
      ++ [TransactionState.Pending]) s.layers.length = TransactionState.Pending
    have hx := stateAt_concat_self
      (commitTxLoop s.committed s.layers s.layers.length) TransactionState.Pending
    rw [hclen] at hx
    exact hx
  have hatj : stateAt (s.commit_transaction).layers j
      = TransactionState.Pending := by
    show stateAt (commitTxLoop s.committed s.layers s.layers.length
      ++ [TransactionState.Pending]) j = TransactionState.Pending
    rw [stateAt_append_left (by omega), hcst j, if_pos rfl]
  refine ⟨⟨rfl, hck, ?_, ?_, ?_, ?_, ?_, ?_⟩, hsort, ?_, ?_⟩
  · rw [hlen]; omega
  · intro i hi
    rw [hsame i (by omega) (by omega)]
    exact hbelow i hi
  · rw [hsame k hkl (by omega)]
    exact hktx
  · exact (List.pairwise_append.mp hpair).1
  · intro x hx
    obtain ⟨h1, h2⟩ := helem x (List.mem_append.mpr (Or.inl hx))
    rw [hlen]
    exact ⟨h1, by omega⟩
  · intro i hi1 hi2
    rw [hlen] at hi2
    by_cases hi3 : i = s.layers.length
    · subst hi3
      rw [htop]
      constructor
      · intro hx
        exact absurd hx (by intro hx2; exact TransactionState.noConfusion hx2)
      · intro hx
        have := hmax _ hx
        omega
    · by_cases hi4 : i = j
      · subst hi4
        rw [hatj]
        constructor
        · intro hx
          exact absurd hx (by intro hx2; exact TransactionState.noConfusion hx2)
        · intro hx
          have := hmax _ hx
          omega
      · rw [hsame i (by omega) hi4, hiff i hi1 (by omega)]
        constructor
        · intro hx
          rcases List.mem_append.mp hx with hx | hx
          · exact hx
          · exact absurd (List.mem_singleton.mp hx) hi4
        · intro hx
          exact List.mem_append.mpr (Or.inl hx)
  · intro e he
    rw [hlen]
    have := hb e he
    omega
  · rw [maskedGet_congr_layers k h (s.commit_transaction).layers s.layers
      (fun i hi => hsame i (by omega) (by omega))]
    exact hm

theorem runInv_discard (k c : Nat) (base : List TransactionState) (v0 : Option V)
    (ts0 : List Nat) (j : Nat) (s : States) (h : History V)
    (hinv : RunInv k c base v0 (ts0 ++ [j]) s h) :
    RunInv k c base v0 ts0 s.discard_transaction h := by
  obtain ⟨⟨hcom, hck, hkl, hbelow, hktx, hpair, helem, hiff⟩, hsort, hb, hm⟩ := hinv
  subst hcom
  have hjmem : j ∈ ts0 ++ [j] :=
    List.mem_append.mpr (Or.inr (List.mem_singleton.mpr rfl))
  obtain ⟨hkj, hjlen⟩ := helem j hjmem
  have hjtx : stateAt s.layers j = TransactionState.TxPending :=
    (hiff j hkj hjlen).mpr hjmem
  have hmax : ∀ x ∈ ts0, x < j := by
    have hx := List.pairwise_append.mp hpair
    exact fun x hx2 => hx.2.2 x hx2 j (List.mem_singleton.mpr rfl)
  have habove : ∀ m, j < m → m < s.layers.length →
      stateAt s.layers m ≠ TransactionState.TxPending := by
    intro m hm1 hm2 hm3
    have := (hiff m (by omega) hm2).mp hm3
    rcases List.mem_append.mp this with hx | hx
    · have := hmax m hx
      omega
    · rw [List.mem_singleton.mp hx] at hm1
      omega
  have hgt : greatestTxBelow s.layers s.committed s.layers.length = some j :=
    greatestTxBelow_eq_some s.layers s.committed s.layers.length j (by omega)
      hjlen hjtx habove
  have hdlen : (discardTxLoop s.committed s.layers s.layers.length).length
      = s.layers.length :=
    discardTxLoop_length s.committed s.layers.length s.layers
  have hdst : ∀ m, stateAt (discardTxLoop s.committed s.layers s.layers.length) m
      = if j < m ∧ m < s.layers.length then
          (if stateAt s.layers m = TransactionState.Pending then
            TransactionState.Dropped else stateAt s.layers m)
        else if m = j then TransactionState.Dropped
        else stateAt s.layers m := by
    intro m
    have hx := discardTxLoop_spec s.committed s.layers.length s.layers (le_refl _) m
    rw [hgt] at hx
    exact hx
  have hlen : (s.discard_transaction).layers.length = s.layers.length + 1 := by
    show (discardTxLoop s.committed s.layers s.layers.length
      ++ [TransactionState.Pending]).length = s.layers.length + 1
    rw [List.length_append, hdlen]
    rfl
  have hsame : ∀ i, i < s.layers.length → i ≤ j → i ≠ j →
      stateAt (s.discard_transaction).layers i = stateAt s.layers i := by
    intro i hi hij hij2
    show stateAt (discardTxLoop s.committed s.layers s.layers.length
      ++ [TransactionState.Pending]) i = stateAt s.layers i
    rw [stateAt_append_left (by omega), hdst i,
      if_neg (show ¬(j < i ∧ i < s.layers.length) from by omega), if_neg hij2]
  have htop : stateAt (s.discard_transaction).layers s.layers.length
      = TransactionState.Pending := by
    show stateAt (discardTxLoop s.committed s.layers s.layers.length
      ++ [TransactionState.Pending]) s.layers.length = TransactionState.Pending
    have hx := stateAt_concat_self
      (discardTxLoop s.committed s.layers s.layers.length) TransactionState.Pending
    rw [hdlen] at hx
    exact hx
  have hdropped : ∀ i, j ≤ i → i < s.layers.length →
      stateAt (s.discard_transaction).layers i ≠ TransactionState.TxPending := by
    intro i hij hi
    show stateAt (discardTxLoop s.committed s.layers s.layers.length
      ++ [TransactionState.Pending]) i ≠ TransactionState.TxPending
    rw [stateAt_append_left (by omega), hdst i]
    by_cases hij2 : i = j
    · rw [if_neg (show ¬(j < i ∧ i < s.layers.length) from by omega), if_pos hij2]
      intro hx
      exact TransactionState.noConfusion hx
    · rw [if_pos (show j < i ∧ i < s.layers.length from by omega)]
      cases hsm : stateAt s.layers i with
      | Pending =>
        rw [if_pos rfl]
        intro hx
        exact TransactionState.noConfusion hx
      | Dropped =>
        rw [if_neg (by intro hx; exact TransactionState.noConfusion hx)]
        intro hx
        exact TransactionState.noConfusion hx
      | TxPending => exact absurd hsm (habove i (by omega) hi)
  refine ⟨⟨rfl, hck, ?_, ?_, ?_, ?_, ?_, ?_⟩, hsort, ?_, ?_⟩
  · rw [hlen]; omega
  · intro i hi
    rw [hsame i (by omega) (by omega) (by omega)]
    exact hbelow i hi
  · rw [hsame k hkl (by omega) (by omega)]
    exact hktx
  · exact (List.pairwise_append.mp hpair).1
  · intro x hx
    obtain ⟨h1, h2⟩ := helem x (List.mem_append.mpr (Or.inl hx))
    rw [hlen]
    exact ⟨h1, by omega⟩
  · intro i hi1 hi2
    rw [hlen] at hi2
    by_cases hi3 : i = s.layers.length
    · subst hi3
      rw [htop]
      constructor
      · intro hx
        exact absurd hx (by intro hx2; exact TransactionState.noConfusion hx2)
      · intro hx
        have := hmax _ hx
        omega
    · by_cases hi4 : j ≤ i
      · constructor
        · intro hx
          exact absurd hx (hdropped i hi4 (by omega))
        · intro hx
          have := hmax _ hx
          omega
      · rw [hsame i (by omega) (by omega) (by omega), hiff i hi1 (by omega)]
        constructor
        · intro hx
          rcases List.mem_append.mp hx with hx | hx
          · exact hx
          · rw [List.mem_singleton.mp hx] at hi4
            omega
        · intro hx
          exact List.mem_append.mpr (Or.inl hx)
  · intro e he
    rw [hlen]
    have := hb e he
    omega
  · rw [maskedGet_congr_layers k h (s.discard_transaction).layers s.layers
      (fun i hi => hsame i (by omega) (by omega) (by omega))]
    exact hm

theorem runInv_final_discard (k c : Nat) (base : List TransactionState)
    (v0 : Option V) (s : States) (h : History V)
    (hinv : RunInv k c base v0 [] s h) :
    History.get h (s.discard_transaction).layers = v0 := by
  obtain ⟨⟨hcom, hck, hkl, hbelow, hktx, hpair, helem, hiff⟩, hsort, hb, hm⟩ := hinv
  subst hcom
  have habove : ∀ m, k < m → m < s.layers.length →
      stateAt s.layers m ≠ TransactionState.TxPending := by
    intro m hm1 hm2 hm3
    have := (hiff m hm1 hm2).mp hm3
    exact absurd this (List.not_mem_nil m)
  have hgt : greatestTxBelow s.layers s.committed s.layers.length = some k :=
    greatestTxBelow_eq_some s.layers s.committed s.layers.length k hck
      hkl hktx habove
  have hdlen : (discardTxLoop s.committed s.layers s.layers.length).length
      = s.layers.length :=
    discardTxLoop_length s.committed s.layers.length s.layers
  have hdst : ∀ m, stateAt (discardTxLoop s.committed s.layers s.layers.length) m
      = if k < m ∧ m < s.layers.length then
          (if stateAt s.layers m = TransactionState.Pending then
            TransactionState.Dropped else stateAt s.layers m)
        else if m = k then TransactionState.Dropped
        else stateAt s.layers m := by
    intro m
    have hx := discardTxLoop_spec s.committed s.layers.length s.layers (le_refl _) m
    rw [hgt] at hx
    exact hx
  have hsame : ∀ i, i < k →
      stateAt (s.discard_transaction).layers i = stateAt s.layers i := by
    intro i hi
    show stateAt (discardTxLoop s.committed s.layers s.layers.length
      ++ [TransactionState.Pending]) i = stateAt s.layers i
    rw [stateAt_append_left (by omega), hdst i,
      if_neg (show ¬(k < i ∧ i < s.layers.length) from by omega),
      if_neg (show ¬(i = k) from by omega)]
  have hdead : ∀ e ∈ h, k ≤ e.index →
      stateAt (s.discard_transaction).layers e.index
        = TransactionState.Dropped := by
    intro e he hke
    have helen : e.index < s.layers.length := hb e he
    show stateAt (discardTxLoop s.committed s.layers s.layers.length
      ++ [TransactionState.Pending]) e.index = TransactionState.Dropped
    rw [stateAt_append_left (by omega), hdst e.index]
    by_cases hek : e.index = k
    · rw [if_neg (show ¬(k < e.index ∧ e.index < s.layers.length) from by omega),
        if_pos hek]
    · rw [if_pos (show k < e.index ∧ e.index < s.layers.length from by omega)]
      cases hsm : stateAt s.layers e.index with
      | Pending => rw [if_pos rfl]
      | Dropped =>
        rw [if_neg (by intro hx; exact TransactionState.noConfusion hx)]
      | TxPending => exact absurd hsm (habove e.index (by omega) helen)
  rw [get_eq_masked_of_dead_above k h (s.discard_transaction).layers hdead,
    maskedGet_congr_layers k h (s.discard_transaction).layers s.layers hsame]
  exact hm

theorem runInv_run (k c : Nat) (base : List TransactionState) (v0 : Option V) :
    ∀ (u : List (Op V)) (ts : List Nat) (s : States) (h : History V),
    matchedRun ts.length u = true →
    RunInv k c base v0 ts s h →
    RunInv k c base v0 [] (applyOps u (s, h)).1 (applyOps u (s, h)).2 := by
  intro u
  induction u with
  | nil =>
    intro ts s h hmr hinv
    have hts : ts = [] := List.length_eq_zero.mp (by
      have hx : decide (ts.length = 0) = true := hmr
      simpa using hx)
    subst hts
    exact hinv
  | cons op r ih =>
    intro ts s h hmr hinv
    cases op with
    | setv v =>
      show RunInv k c base v0 []
        (applyOps r (s, History.set h (s.layers, s.committed) v)).1
        (applyOps r (s, History.set h (s.layers, s.committed) v)).2
      exact ih ts s _ hmr (runInv_setv k c base v0 ts s h v hinv)
    | start =>
      show RunInv k c base v0 [] (applyOps r (s.start_transaction, h)).1
        (applyOps r (s.start_transaction, h)).2
      refine ih (ts ++ [s.layers.length]) s.start_transaction h ?_
        (runInv_start k c base v0 ts s h hinv)
      have hx : (ts ++ [s.layers.length]).length = ts.length + 1 := by
        simp
      rw [hx]
      exact hmr
    | commit =>
      have hmr2 : 0 < ts.length ∧ matchedRun (ts.length - 1) r = true := by
        have hx : (decide (0 < ts.length) && matchedRun (ts.length - 1) r)
            = true := hmr
        simpa using hx
      rcases List.eq_nil_or_concat ts with hts | ⟨ts0, j, hts⟩
      · rw [hts] at hmr2
        simp at hmr2
      · rw [List.concat_eq_append] at hts
        subst hts
        show RunInv k c base v0 [] (applyOps r (s.commit_transaction, h)).1
          (applyOps r (s.commit_transaction, h)).2
        refine ih ts0 s.commit_transaction h ?_
          (runInv_commit k c base v0 ts0 j s h hinv)
        have hx : (ts0 ++ [j]).length - 1 = ts0.length := by
          simp
        rw [← hx]
        exact hmr2.2
    | discard =>
      have hmr2 : 0 < ts.length ∧ matchedRun (ts.length - 1) r = true := by
        have hx : (decide (0 < ts.length) && matchedRun (ts.length - 1) r)
            = true := hmr
        simpa using hx
      rcases List.eq_nil_or_concat ts with hts | ⟨ts0, j, hts⟩
      · rw [hts] at hmr2
        simp at hmr2
      · rw [List.concat_eq_append] at hts
        subst hts
        show RunInv k c base v0 [] (applyOps r (s.discard_transaction, h)).1
          (applyOps r (s.discard_transaction, h)).2
        refine ih ts0 s.discard_transaction h ?_
          (runInv_discard k c base v0 ts0 j s h hinv)
        have hx : (ts0 ++ [j]).length - 1 = ts0.length := by
          simp
        rw [← hx]
        exact hmr2.2

/-- C3: rollback law.  For every run of per-key `set` writes
interleaved with `start_transaction` / `commit_transaction` /
`discard_transaction` operations in which every inner
commit/discard closes a transaction opened inside the run
(`matchedRun`), the value `get()` returns immediately after the
`discard_transaction` matching an initial `start_transaction` equals
the value `get()` returned immediately before that
`start_transaction`, absent values included. -/
theorem claim_C3_rollback_law (V : Type) (s : States) (h : History V)
    (u : List (Op V)) (hck : s.committed ≤ s.layers.length)
    (hb : boundedIdx h s.layers.length) (hs : sortedIdx h)
    (hm : matchedRun 0 u = true) :
    History.get (applyOps (Op.start :: (u ++ [Op.discard])) (s, h)).2
        (applyOps (Op.start :: (u ++ [Op.discard])) (s, h)).1.layers
      = History.get h s.layers := by
  have hlen1 : (s.start_transaction).layers.length = s.layers.length + 1 := by
    show (s.layers ++ [TransactionState.TxPending]).length = s.layers.length + 1
    simp
  have hinit : RunInv s.layers.length s.committed s.layers
      (History.get h s.layers) [] s.start_transaction h := by
    refine ⟨⟨rfl, hck, ?_, ?_, ?_, List.Pairwise.nil, ?_, ?_⟩, hs, ?_, ?_⟩
    · rw [hlen1]; omega
    · intro i hi
      exact stateAt_append_left (by omega)
    · exact stateAt_concat_self s.layers _
    · intro x hx
      exact absurd hx (List.not_mem_nil x)
    · intro i hi1 hi2
      rw [hlen1] at hi2
      exact absurd hi2 (by omega)
    · intro e he
      rw [hlen1]
      have := hb e he
      omega
    · rw [maskedGet_congr_layers s.layers.length h (s.start_transaction).layers
        s.layers (fun i hi => stateAt_append_left (by omega))]
      exact (get_eq_masked_of_bound s.layers.length h s.layers hb).symm
  have hrun := runInv_run s.layers.length s.committed s.layers
    (History.get h s.layers) u [] s.start_transaction h hm hinit
  have hdec : applyOps (Op.start :: (u ++ [Op.discard])) (s, h)
      = ((applyOps u (s.start_transaction, h)).1.discard_transaction,
         (applyOps u (s.start_transaction, h)).2) := by
    show applyOps (u ++ [Op.discard]) (s.start_transaction, h) = _
    unfold applyOps
    rw [List.foldl_append]
    rfl
  rw [hdec]
  exact runInv_final_discard s.layers.length s.committed s.layers
    (History.get h s.layers) (applyOps u (s.start_transaction, h)).1
    (applyOps u (s.start_transaction, h)).2 hrun

theorem claim_C3_rollback_law_witness :
    History.get (applyOps (Op.start :: ([Op.setv 2] ++ [Op.discard]))
        (States.start, [(⟨1, 0⟩ : HistoriedValue Nat)])).2
      (applyOps (Op.start :: ([Op.setv 2] ++ [Op.discard]))
        (States.start, [(⟨1, 0⟩ : HistoriedValue Nat)])).1.layers
      = History.get [(⟨1, 0⟩ : HistoriedValue Nat)] States.start.layers :=
  claim_C3_rollback_law Nat States.start [⟨1, 0⟩] [Op.setv 2]
    (by decide)
    (by intro e he; rw [List.mem_singleton.mp he]; decide)
    (List.pairwise_singleton _ _) (by decide)

/-! ### The lowest previous-switch position: everything below it is out
of scope -/

theorem getMutLoop_lowest (h : History V) (s : List TransactionState × Nat)
    (hsort : sortedIdx h) :
    ∀ (i : Nat) (res : Option (Nat × Nat)) (ptx : Option Nat)
      (psw : Option (Nat × Nat)),
    i ≤ h.length →
    (res = none → ptx = none ∧ psw = none) →
    (∀ a b, res = some (a, b) → i ≤ a ∧
      (∃ era, h.get? a = some era ∧ era.index = b) ∧
      ptx = some (find_previous_tx_start s b)) →
    (∀ a b, psw = some (a, b) → i ≤ a ∧ ∀ q e2, i ≤ q → q < a →
      h.get? q = some e2 → stateAt s.1 e2.index = TransactionState.Dropped) →
    (∀ ra rb, res = some (ra, rb) → psw = none → ∀ q e2, i ≤ q → q < ra →
      h.get? q = some e2 → stateAt s.1 e2.index = TransactionState.Dropped) →
    (∀ a b, (getMutLoop h s i res ptx psw).2 = some (a, b) →
      ∀ ra rb, (getMutLoop h s i res ptx psw).1 = some (ra, rb) →
      ∀ q e2, q < a → h.get? q = some e2 →
        stateAt s.1 e2.index ≠ TransactionState.Dropped →
        e2.index < find_previous_tx_start s rb) ∧
    ((getMutLoop h s i res ptx psw).2 = none →
      ∀ ra rb, (getMutLoop h s i res ptx psw).1 = some (ra, rb) →
      stateAt s.1 rb = TransactionState.Pending →
      ∀ q e2, q < ra → h.get? q = some e2 →
        stateAt s.1 e2.index ≠ TransactionState.Dropped →
        e2.index < find_previous_tx_start s rb) := by
  intro i
  induction i with
  | zero =>
    intro res ptx psw _ hn hres h6 h7
    constructor
    · intro a b hab ra rb hrab q e2 hq he2 hlive
      obtain ⟨-, hreg⟩ := h6 a b hab
      exact absurd (hreg q e2 (Nat.zero_le q) hq he2) hlive
    · intro hab ra rb hrab _ q e2 hq he2 hlive
      exact absurd (h7 ra rb hrab hab q e2 (Nat.zero_le q) hq he2) hlive
  | succ i ih =>
    intro res ptx psw hi hn hres h6 h7
    have hip : i < h.length := Nat.lt_of_succ_le hi
    obtain ⟨e, he⟩ := exists_get?_of_lt h i hip
    cases hst : stateAt s.1 e.index with
    | Dropped =>
      simp only [getMutLoop, he, hst]
      refine ih res ptx psw (by omega) hn ?_ ?_ ?_
      · intro a b hab
        obtain ⟨h1, h2, h3⟩ := hres a b hab
        exact ⟨by omega, h2, h3⟩
      · intro a b hab
        obtain ⟨h1, h2⟩ := h6 a b hab
        refine ⟨by omega, ?_⟩
        intro q e2 hq1 hq2 he2
        rcases Nat.eq_or_lt_of_le hq1 with hq3 | hq3
        · rw [← hq3, he] at he2
          cases he2
          exact hst
        · exact h2 q e2 hq3 hq2 he2
      · intro ra rb hrab hpsw q e2 hq1 hq2 he2
        rcases Nat.eq_or_lt_of_le hq1 with hq3 | hq3
        · rw [← hq3, he] at he2
          cases he2
          exact hst
        · exact h7 ra rb hrab hpsw q e2 hq3 hq2 he2
    | TxPending =>
      by_cases hg : geInf e.index ptx = true
      · obtain ⟨st2, hst2, hstle⟩ := geInf_some hg
        have hrsome : ∃ ra rb, res = some (ra, rb) := by
          cases hresv : res with
          | none =>
            obtain ⟨hptx0, -⟩ := hn hresv
            rw [hptx0] at hst2
            cases hst2
          | some r => exact ⟨r.1, r.2, by rw [Prod.mk.eta]⟩
        obtain ⟨ra, rb, hres2⟩ := hrsome
        obtain ⟨hra1, ⟨era, hera, herab⟩, hptx2⟩ := hres ra rb hres2
        have hSeq : st2 = find_previous_tx_start s rb := by
          rw [hptx2] at hst2
          injection hst2 with hx
          exact hx.symm
        have herb : e.index < rb := by
          have := sortedIdx_get? hsort (show i < ra from by omega) he hera
          omega
        have hcS : s.2 ≤ find_previous_tx_start s rb :=
          find_previous_tx_start_ge s rb
        have heS : e.index ≤ find_previous_tx_start s rb :=
          find_previous_tx_start_greatest s (by omega) herb hst
        have hSe : find_previous_tx_start s rb = e.index := by omega
        simp only [getMutLoop, he, hst, if_pos hg]
        constructor
        · intro a b hab ra2 rb2 hrab q e2 hq he2 hlive
          injection hab with hab
          injection hab with hx1 hx2
          rw [hres2] at hrab
          injection hrab with hrab
          injection hrab with hy1 hy2
          subst hy2
          rw [hSe]
          have := sortedIdx_get? hsort (show q < i from by omega) he2 he
          omega
        · intro hab
          rw [hres2] at *
          intro ra2 rb2 hrab
          injection hab
      · cases hresv : res with
        | none =>
          obtain ⟨hptx0, hpsw0⟩ := hn hresv
          subst hresv
          subst hptx0
          subst hpsw0
          simp only [getMutLoop, he, hst, if_neg hg,
            if_pos (show (none : Option (Nat × Nat)).isNone = true from rfl)]
          constructor
          · intro a b hab
            cases hab
          · intro hab ra rb hrab hpend
            injection hrab with hrab
            injection hrab with hx1 hx2
            subst hx2
            rw [hst] at hpend
            exact absurd hpend (by intro hx; exact TransactionState.noConfusion hx)
        | some r =>
          subst hresv
          simp only [getMutLoop, he, hst, if_neg hg,
            if_neg (show ¬((some r).isNone = true) from by simp)]
          rcases r with ⟨ra, rb⟩
          obtain ⟨hra1, ⟨era, hera, herab⟩, hptx2⟩ := hres ra rb rfl
          have heS : e.index < find_previous_tx_start s rb := by
            rw [hptx2] at hg
            simp only [geInf, decide_eq_true_eq] at hg
            omega
          constructor
          · intro a b hab ra2 rb2 hrab q e2 hq he2 hlive
            injection hrab with hrab
            injection hrab with hy1 hy2
            subst hy2
            obtain ⟨ha1, hreg⟩ := h6 a b hab
            rcases Nat.lt_or_ge q (i + 1) with hq2 | hq2
            · rcases Nat.lt_or_ge q i with hq3 | hq3
              · have := sortedIdx_get? hsort hq3 he2 he
                omega
              · have hqi : q = i := by omega
                rw [hqi, he] at he2
                cases he2
                omega
            · exact absurd (hreg q e2 hq2 hq he2) hlive
          · intro hab ra2 rb2 hrab hpend q e2 hq he2 hlive
            injection hrab with hrab
            injection hrab with hy1 hy2
            subst hy1
            subst hy2
            rcases Nat.lt_or_ge q (i + 1) with hq2 | hq2
            · rcases Nat.lt_or_ge q i with hq3 | hq3
              · have := sortedIdx_get? hsort hq3 he2 he
                omega
              · have hqi : q = i := by omega
                rw [hqi, he] at he2
                cases he2
                omega
            · exact absurd (h7 ra rb rfl hab q e2 hq2 hq he2) hlive
    | Pending =>
      by_cases hg : geInf e.index ptx = true
      · simp only [getMutLoop, he, hst, if_pos hg]
        refine ih res ptx (some (i, e.index)) (by omega) ?_ ?_ ?_ ?_
        · intro hx
          obtain ⟨hptx0, -⟩ := hn hx
          rw [hptx0] at hg
          exact absurd hg (by simp [geInf])
        · intro a b hab
          obtain ⟨h1, h2, h3⟩ := hres a b hab
          exact ⟨by omega, h2, h3⟩
        · intro a b hab
          injection hab with hab
          injection hab with hx1 hx2
          subst hx1
          exact ⟨le_refl _, fun q e2 hq1 hq2 _ => absurd hq2 (by omega)⟩
        · intro ra rb hrab hpsw
          cases hpsw
      · cases hresv : res with
        | none =>
          obtain ⟨hptx0, hpsw0⟩ := hn hresv
          subst hresv
          subst hptx0
          subst hpsw0
          simp only [getMutLoop, he, hst, if_neg hg,
            if_pos (show (none : Option (Nat × Nat)).isNone = true from rfl)]
          refine ih (some (i, e.index))
            (some (find_previous_tx_start s e.index)) none (by omega)
            ?_ ?_ ?_ ?_
          · intro hx
            cases hx
          · intro a b hab
            injection hab with hab
            injection hab with hx1 hx2
            subst hx1
            subst hx2
            exact ⟨le_refl _, ⟨e, he, rfl⟩, rfl⟩
          · intro a b hab
            cases hab
          · intro ra rb hrab _
            injection hrab with hrab
            injection hrab with hx1 hx2
            subst hx1
            exact fun q e2 hq1 hq2 _ => absurd hq2 (by omega)
        | some r =>
          subst hresv
          simp only [getMutLoop, he, hst, if_neg hg,
            if_neg (show ¬((some r).isNone = true) from by simp)]
          rcases r with ⟨ra, rb⟩
          obtain ⟨hra1, ⟨era, hera, herab⟩, hptx2⟩ := hres ra rb rfl
          have heS : e.index < find_previous_tx_start s rb := by
            rw [hptx2] at hg
            simp only [geInf, decide_eq_true_eq] at hg
            omega
          constructor
          · intro a b hab ra2 rb2 hrab q e2 hq he2 hlive
            injection hrab with hrab
            injection hrab with hy1 hy2
            subst hy2
            obtain ⟨ha1, hreg⟩ := h6 a b hab
            rcases Nat.lt_or_ge q (i + 1) with hq2 | hq2
            · rcases Nat.lt_or_ge q i with hq3 | hq3
              · have := sortedIdx_get? hsort hq3 he2 he
                omega
              · have hqi : q = i := by omega
                rw [hqi, he] at he2
                cases he2
                omega
            · exact absurd (hreg q e2 hq2 hq he2) hlive
          · intro hab ra2 rb2 hrab hpend q e2 hq he2 hlive
            injection hrab with hrab
            injection hrab with hy1 hy2
            subst hy1
            subst hy2
            rcases Nat.lt_or_ge q (i + 1) with hq2 | hq2
            · rcases Nat.lt_or_ge q i with hq3 | hq3
              · have := sortedIdx_get? hsort hq3 he2 he
                omega
              · have hqi : q = i := by omega
                rw [hqi, he] at he2
                cases he2
                omega
            · exact absurd (h7 ra rb rfl hab q e2 hq2 hq he2) hlive

theorem get_mut_prefix_low (h : History V) (s : List TransactionState × Nat)
    (hsort : sortedIdx h) (p : Nat) (e : HistoriedValue V)
    (hfl : firstLiveBelow h s.1 h.length = some p) (he : h.get? p = some e)
    (hpend : stateAt s.1 e.index = TransactionState.Pending)
    (pos sidx : Nat) (h1 : History V)
    (hgm : History.get_mut h s = (some (pos, sidx), h1)) :
    ∀ q e2, q < pos → h.get? q = some e2 →
      stateAt s.1 e2.index ≠ TransactionState.Dropped →
      e2.index < find_previous_tx_start s e.index := by
  obtain ⟨e3, he3, hres0⟩ := (getMutLoop_result h s (le_refl _)).2 p hfl
  rw [he] at he3
  cases he3
  obtain ⟨hp1, -, -⟩ := firstLiveBelow_some h s.1 h.length p (le_refl _) hfl
  have h0 : ¬h.length = 0 := by omega
  rcases hloop : getMutLoop h s h.length none none none with ⟨res, psw⟩
  rw [hloop] at hres0
  simp only at hres0
  subst hres0
  have hlow := getMutLoop_lowest h s hsort h.length none none none (le_refl _)
    (fun _ => ⟨rfl, rfl⟩) (fun a b hab => by cases hab)
    (fun a b hab => by cases hab) (fun ra rb hrab => by cases hrab)
  rw [hloop] at hlow
  have hgm2 := hgm
  unfold History.get_mut at hgm2
  rw [if_neg h0, hloop] at hgm2
  simp only at hgm2
  cases psw with
  | none =>
    have hpp : pos = p := by
      have hx := congrArg Prod.fst hgm2
      simp only at hx
      injection hx with hx
      injection hx with hx1 hx2
      omega
    intro q e2 hq he2 hlive
    exact hlow.2 rfl p e.index rfl hpend q e2 (by omega) he2 hlive
  | some sw =>
    rcases sw with ⟨sp, sb⟩
    have hpp : pos = sp := by
      rcases hlast : (if p + 1 < h.length then h.take (p + 1) else h).getLast?
        with _ | v
      · rw [hlast] at hgm2
        have hx := congrArg Prod.fst hgm2
        simp only at hx
        injection hx with hx
        injection hx with hx1 hx2
        omega
      · rw [hlast] at hgm2
        have hx := congrArg Prod.fst hgm2
        simp only at hx
        injection hx with hx
        injection hx with hx1 hx2
        omega
    intro q e2 hq he2 hlive
    exact hlow.1 sp sb rfl p e.index rfl q e2 (by omega) he2 hlive

theorem scope_partner_absurd (s : List TransactionState × Nat) (x S2 : Nat)
    (hS2 : scopeOf s x = S2) (hlt : x < S2)
    (hopen : stateAt s.1 S2 = TransactionState.TxPending)
    (hcom : stateAt s.1 s.2 ≠ TransactionState.TxPending) : False := by
  unfold scopeOf at hS2
  by_cases hx : stateAt s.1 x = TransactionState.TxPending
  · rw [if_pos hx] at hS2
    omega
  · rw [if_neg hx] at hS2
    rcases find_previous_tx_start_cases s x with ⟨h1, h2, h3⟩ | ⟨h1, h2⟩
    · rw [hS2] at h2
      omega
    · rw [h1] at hS2
      rw [← hS2] at hopen
      exact hcom hopen

theorem get_mut_amo (h : History V) (s : List TransactionState × Nat)
    (hsort : sortedIdx h) (hcoh : scopeCoherent s h)
    (hcom : stateAt s.1 s.2 ≠ TransactionState.TxPending) :
    atMostOnePerScope s (History.get_mut h s).2 := by
  cases hfl : firstLiveBelow h s.1 h.length with
  | none =>
    rw [get_mut_none_char h s hfl]
    intro b hb
    simp at hb
  | some p =>
    obtain ⟨e, pos, sidx, epos, he, helive, hepos, heposidx, heposlive,
      hposp, hplen, hgm⟩ := get_mut_some_char h s p hfl
    rw [hgm]
    have htl : (h.take pos).length = pos := by
      rw [List.length_take]; omega
    intro b hb a ha ep eq2 hep heq2 hl1 hl2 hopen hsame
    have hb2 : b < pos + 1 := by
      rw [List.length_append, htl] at hb
      simpa using hb
    have hgetA : ∀ j, j < pos →
        (h.take pos ++ [(⟨e.value, sidx⟩ : HistoriedValue V)]).get? j
          = h.get? j := by
      intro j hj
      rw [List.get?_append (show j < (h.take pos).length from by
        rw [htl]; exact hj)]
      exact List.get?_take hj
    have hepA : h.get? a = some ep := by
      rw [← hgetA a (by omega)]
      exact hep
    rcases get_mut_switch_facts h s p e hfl he pos sidx _ hgm with
      ⟨hpp, hss⟩ | ⟨hlt, hpend, hfle, hregion⟩
    · subst hpp
      subst hss
      have hescope : scopeOf s e.index = scopeOf s ep.index := by
        rcases Nat.lt_or_ge b pos with hbp | hbp
        · have heq2A : h.get? b = some eq2 := by
            rw [← hgetA b hbp]
            exact heq2
          exact hcoh a b pos ep eq2 e ha hbp hepA heq2A he hl1 hl2 helive
            hopen hsame
        · have hbeq : b = pos := by omega
          have heq2top : eq2 = ⟨e.value, e.index⟩ := by
            rw [hbeq] at heq2
            have htop : (h.take pos
                ++ [(⟨e.value, e.index⟩ : HistoriedValue V)]).get? pos
                = some ⟨e.value, e.index⟩ := by
              have hx := List.get?_concat_length (h.take pos)
                (⟨e.value, e.index⟩ : HistoriedValue V)
              rw [htl] at hx
              exact hx
            rw [htop] at heq2
            injection heq2 with hx
            exact hx.symm
          rw [← hsame, heq2top]
      cases hst : stateAt s.1 e.index with
      | Dropped => exact helive hst
      | TxPending =>
        have hS2 : scopeOf s ep.index = e.index := by
          rw [← hescope]
          unfold scopeOf
          rw [if_pos hst]
        have hlt2 : ep.index < e.index :=
          sortedIdx_get? hsort (show a < pos from by omega) hepA he
        exact scope_partner_absurd s ep.index (scopeOf s ep.index) rfl
          (by omega) hopen hcom
      | Pending =>
        have hplow := get_mut_prefix_low h s hsort pos e hfl he hst
          pos e.index _ hgm
        have hlt2 : ep.index < find_previous_tx_start s e.index :=
          hplow a ep (by omega) hepA hl1
        have hS2 : scopeOf s ep.index = find_previous_tx_start s e.index := by
          rw [← hescope]
          unfold scopeOf
          rw [if_neg (show ¬(stateAt s.1 e.index = TransactionState.TxPending)
            from by simp [hst])]
        exact scope_partner_absurd s ep.index (scopeOf s ep.index) rfl
          (by omega) hopen hcom
    · have hplow := get_mut_prefix_low h s hsort p e hfl he hpend
        pos sidx _ hgm
      have hlt2 : ep.index < find_previous_tx_start s e.index :=
        hplow a ep (by omega) hepA hl1
      rcases Nat.lt_or_ge b pos with hbp | hbp
      · have heq2A : h.get? b = some eq2 := by
          rw [← hgetA b hbp]
          exact heq2
        have hescope : scopeOf s e.index = scopeOf s ep.index :=
          hcoh a b p ep eq2 e ha (by omega) hepA heq2A he hl1 hl2 helive
            hopen hsame
        have hS2 : scopeOf s ep.index = find_previous_tx_start s e.index := by
          rw [← hescope]
          unfold scopeOf
          rw [if_neg (show ¬(stateAt s.1 e.index = TransactionState.TxPending)
            from by simp [hpend])]
        exact scope_partner_absurd s ep.index (scopeOf s ep.index) rfl
          (by omega) hopen hcom
      · have hbeq : b = pos := by omega
        have heq2idx : eq2.index = sidx := by
          rw [hbeq] at heq2
          have htop : (h.take pos
              ++ [(⟨e.value, sidx⟩ : HistoriedValue V)]).get? pos
              = some ⟨e.value, sidx⟩ := by
            have hx := List.get?_concat_length (h.take pos)
              (⟨e.value, sidx⟩ : HistoriedValue V)
            rw [htl] at hx
            exact hx
          rw [htop] at heq2
          injection heq2 with hx
          rw [← hx]
        have hsidxlive : stateAt s.1 sidx ≠ TransactionState.Dropped := by
          rw [← heposidx]
          exact heposlive
        have hSle : find_previous_tx_start s e.index ≤ scopeOf s sidx := by
          cases hsts : stateAt s.1 sidx with
          | Dropped => exact absurd hsts hsidxlive
          | TxPending =>
            unfold scopeOf
            rw [if_pos hsts]
            exact hfle
          | Pending =>
            unfold scopeOf
            rw [if_neg (show ¬(stateAt s.1 sidx = TransactionState.TxPending)
              from by simp [hsts])]
            rcases find_previous_tx_start_cases s e.index with
              ⟨hc1, hc2, hc3⟩ | ⟨hc1, hc2⟩
            · have hne : find_previous_tx_start s e.index ≠ sidx := by
                intro hx
                rw [hx, hsts] at hc3
                exact TransactionState.noConfusion hc3
              exact find_previous_tx_start_greatest s hc1 (by omega) hc3
            · rw [hc1]
              exact find_previous_tx_start_ge s sidx
        have hS2 : scopeOf s ep.index = scopeOf s sidx := by
          rw [← hsame, heq2idx]
        exact scope_partner_absurd s ep.index (scopeOf s ep.index) rfl
          (by omega) hopen hcom

/-! ### `get_mut_pruning` with the flag set: same scan outcome, then a
physical prune -/

theorem getMutPruningLoop_frozen (h : History V)
    (s : List TransactionState × Nat) :
    ∀ (i : Nat) (r0 : Nat × Nat) (ptx : Option Nat) (psw : Option (Nat × Nat))
      (pidx : Nat),
    i ≤ h.length →
    (∀ q e2, q < i → h.get? q = some e2 → geInf e2.index ptx = false) →
    (getMutPruningLoop h s true i (some r0) ptx psw pidx).1 = some r0 ∧
    (getMutPruningLoop h s true i (some r0) ptx psw pidx).2.1 = psw := by
  intro i
  induction i with
  | zero => intro r0 ptx psw pidx _ _; exact ⟨by trivial, by trivial⟩
  | succ i ih =>
    intro r0 ptx psw pidx hi hg
    have hip : i < h.length := Nat.lt_of_succ_le hi
    obtain ⟨e, he⟩ := exists_get?_of_lt h i hip
    have hgi : geInf e.index ptx = false := hg i e (Nat.lt_succ_self i) he
    cases hst : stateAt s.1 e.index with
    | Dropped =>
      simp only [getMutPruningLoop, he, hst]
      exact ih r0 ptx psw pidx (by omega)
        (fun q e2 hq he2 => hg q e2 (by omega) he2)
    | TxPending =>
      by_cases hc : e.index < s.2
      · simp only [getMutPruningLoop, he, hst, hgi, Bool.false_eq_true,
          if_false, if_neg (show ¬((some r0).isNone = true) from by simp),
          if_pos hc, eq_self_iff_true, if_true]
        exact ⟨by trivial, by trivial⟩
      · simp only [getMutPruningLoop, he, hst, hgi, Bool.false_eq_true,
          if_false, if_neg (show ¬((some r0).isNone = true) from by simp),
          if_neg hc, eq_self_iff_true, if_true]
        exact ih r0 ptx psw _ (by omega)
          (fun q e2 hq he2 => hg q e2 (by omega) he2)
    | Pending =>
      by_cases hc : e.index < s.2
      · simp only [getMutPruningLoop, he, hst, hgi, Bool.false_eq_true,
          if_false, if_neg (show ¬((some r0).isNone = true) from by simp),
          if_pos hc, eq_self_iff_true, if_true]
        exact ⟨by trivial, by trivial⟩
      · simp only [getMutPruningLoop, he, hst, hgi, Bool.false_eq_true,
          if_false, if_neg (show ¬((some r0).isNone = true) from by simp),
          if_neg hc, eq_self_iff_true, if_true]
        exact ih r0 ptx psw _ (by omega)
          (fun q e2 hq he2 => hg q e2 (by omega) he2)

theorem getMutPruningLoop_lockstep (h : History V)
    (s : List TransactionState × Nat) (hsort : sortedIdx h) :
    ∀ (i : Nat) (res : Option (Nat × Nat)) (ptx : Option Nat)
      (psw : Option (Nat × Nat)) (pidx : Nat),
    i ≤ h.length →
    (res = none → ptx = none ∧ psw = none) →
    (∀ a b, res = some (a, b) → i ≤ a ∧
      (∃ era, h.get? a = some era ∧ era.index = b) ∧
      ptx = some (find_previous_tx_start s b)) →
    (getMutPruningLoop h s true i res ptx psw pidx).1
        = (getMutLoop h s i res ptx psw).1 ∧
    (getMutPruningLoop h s true i res ptx psw pidx).2.1
        = (getMutLoop h s i res ptx psw).2 := by
  intro i
  induction i with
  | zero => intro res ptx psw pidx _ _ _; exact ⟨by trivial, by trivial⟩
  | succ i ih =>
    intro res ptx psw pidx hi hn hres
    have hip : i < h.length := Nat.lt_of_succ_le hi
    obtain ⟨e, he⟩ := exists_get?_of_lt h i hip
    cases hst : stateAt s.1 e.index with
    | Dropped =>
      simp only [getMutPruningLoop, getMutLoop, he, hst]
      refine ih res ptx psw pidx (by omega) hn ?_
      intro a b hab
      obtain ⟨h1, h2, h3⟩ := hres a b hab
      exact ⟨by omega, h2, h3⟩
    | TxPending =>
      by_cases hg : geInf e.index ptx = true
      · obtain ⟨st2, hst2, hstle⟩ := geInf_some hg
        have hrsome : ∃ ra rb, res = some (ra, rb) := by
          cases hresv : res with
          | none =>
            obtain ⟨hptx0, -⟩ := hn hresv
            rw [hptx0] at hst2
            cases hst2
          | some r => exact ⟨r.1, r.2, by rw [Prod.mk.eta]⟩
        obtain ⟨ra, rb, hres2⟩ := hrsome
        obtain ⟨hra1, ⟨era, hera, herab⟩, hptx2⟩ := hres ra rb hres2
        have hSeq : st2 = find_previous_tx_start s rb := by
          rw [hptx2] at hst2
          injection hst2 with hx
          exact hx.symm
        have herb : e.index < rb := by
          have := sortedIdx_get? hsort (show i < ra from by omega) he hera
          omega
        have hcS : s.2 ≤ find_previous_tx_start s rb :=
          find_previous_tx_start_ge s rb
        have heS : e.index ≤ find_previous_tx_start s rb :=
          find_previous_tx_start_greatest s (by omega) herb hst
        have hbound : ∀ q e2, q < i → h.get? q = some e2 →
            geInf e2.index ptx = false := by
          intro q e2 hq he2
          rw [hptx2]
          have hlt := sortedIdx_get? hsort hq he2 he
          simp only [geInf]
          rw [decide_eq_false (by omega)]
        by_cases hc : e.index < s.2
        · exact absurd hc (by omega)
        · simp only [getMutPruningLoop, getMutLoop, he, hst, if_pos hg,
            if_neg hc, eq_self_iff_true, if_true]
          rw [hres2]
          exact ⟨(getMutPruningLoop_frozen h s i (ra, rb) ptx
              (some (i, e.index)) _ (by omega) hbound).1,
            (getMutPruningLoop_frozen h s i (ra, rb) ptx
              (some (i, e.index)) _ (by omega) hbound).2⟩
      · cases hresv : res with
        | none =>
          obtain ⟨hptx0, hpsw0⟩ := hn hresv
          subst hresv
          subst hptx0
          subst hpsw0
          by_cases hc : e.index < s.2
          · simp only [getMutPruningLoop, getMutLoop, he, hst, if_neg hg,
              if_pos (show (none : Option (Nat × Nat)).isNone = true from rfl),
              if_pos hc, eq_self_iff_true, if_true]
            exact ⟨by trivial, by trivial⟩
          · simp only [getMutPruningLoop, getMutLoop, he, hst, if_neg hg,
              if_pos (show (none : Option (Nat × Nat)).isNone = true from rfl),
              if_neg hc, eq_self_iff_true, if_true]
            exact ⟨(getMutPruningLoop_frozen h s i (i, e.index) none none _
                (by omega) (fun q e2 _ _ => rfl)).1,
              (getMutPruningLoop_frozen h s i (i, e.index) none none _
                (by omega) (fun q e2 _ _ => rfl)).2⟩
        | some r =>
          subst hresv
          rcases r with ⟨ra, rb⟩
          obtain ⟨hra1, ⟨era, hera, herab⟩, hptx2⟩ := hres ra rb rfl
          have hbound : ∀ q e2, q < i → h.get? q = some e2 →
              geInf e2.index ptx = false := by
            intro q e2 hq he2
            rw [hptx2]
            have hlt := sortedIdx_get? hsort hq he2 he
            have hgS : e.index < find_previous_tx_start s rb := by
              rw [hptx2] at hg
              simp only [geInf, decide_eq_true_eq] at hg
              omega
            simp only [geInf]
            rw [decide_eq_false (by omega)]
          by_cases hc : e.index < s.2
          · simp only [getMutPruningLoop, getMutLoop, he, hst, if_neg hg,
              if_neg (show ¬((some (ra, rb)).isNone = true) from by simp),
              if_pos hc, eq_self_iff_true, if_true]
            exact ⟨by trivial, by trivial⟩
          · simp only [getMutPruningLoop, getMutLoop, he, hst, if_neg hg,
              if_neg (show ¬((some (ra, rb)).isNone = true) from by simp),
              if_neg hc, eq_self_iff_true, if_true]
            exact ⟨(getMutPruningLoop_frozen h s i (ra, rb) ptx psw _
                (by omega) hbound).1,
              (getMutPruningLoop_frozen h s i (ra, rb) ptx psw _
                (by omega) hbound).2⟩
    | Pending =>
      by_cases hg : geInf e.index ptx = true
      · simp only [getMutPruningLoop, getMutLoop, he, hst, if_pos hg]
        refine ih res ptx (some (i, e.index)) _ (by omega) ?_ ?_
        · intro hx
          obtain ⟨hptx0, -⟩ := hn hx
          rw [hptx0] at hg
          exact absurd hg (by simp [geInf])
        · intro a b hab
          obtain ⟨h1, h2, h3⟩ := hres a b hab
          exact ⟨by omega, h2, h3⟩
      · cases hresv : res with
        | none =>
          obtain ⟨hptx0, hpsw0⟩ := hn hresv
          subst hresv
          subst hptx0
          subst hpsw0
          simp only [getMutPruningLoop, getMutLoop, he, hst, if_neg hg,
            if_pos (show (none : Option (Nat × Nat)).isNone = true from rfl)]
          refine ih (some (i, e.index))
            (some (find_previous_tx_start s e.index)) none _ (by omega)
            ?_ ?_
          · intro hx
            cases hx
          · intro a b hab
            injection hab with hab
            injection hab with hx1 hx2
            subst hx1
            subst hx2
            exact ⟨le_refl _, ⟨e, he, rfl⟩, rfl⟩
        | some r =>
          subst hresv
          rcases r with ⟨ra, rb⟩
          obtain ⟨hra1, ⟨era, hera, herab⟩, hptx2⟩ := hres ra rb rfl
          have hbound : ∀ q e2, q < i → h.get? q = some e2 →
              geInf e2.index ptx = false := by
            intro q e2 hq he2
            rw [hptx2]
            have hlt := sortedIdx_get? hsort hq he2 he
            have hgS : e.index < find_previous_tx_start s rb := by
              rw [hptx2] at hg
              simp only [geInf, decide_eq_true_eq] at hg
              omega
            simp only [geInf]
            rw [decide_eq_false (by omega)]
          by_cases hc : e.index < s.2
          · simp only [getMutPruningLoop, getMutLoop, he, hst, if_neg hg,
              if_neg (show ¬((some (ra, rb)).isNone = true) from by simp),
              if_pos hc, eq_self_iff_true, if_true]
            exact ⟨by trivial, by trivial⟩
          · simp only [getMutPruningLoop, getMutLoop, he, hst, if_neg hg,
              if_neg (show ¬((some (ra, rb)).isNone = true) from by simp),
              if_neg hc, eq_self_iff_true, if_true]
            exact ⟨(getMutPruningLoop_frozen h s i (ra, rb) ptx psw _
                (by omega) hbound).1,
              (getMutPruningLoop_frozen h s i (ra, rb) ptx psw _
                (by omega) hbound).2⟩

theorem getMutPruningLoop_pidx (h : History V)
    (s : List TransactionState × Nat) :
    ∀ (i : Nat) (res : Option (Nat × Nat)) (ptx : Option Nat)
      (psw : Option (Nat × Nat)) (pidx : Nat),
    i ≤ h.length →
    (pidx = 0 ∨ ∃ ep, h.get? pidx = some ep ∧ ep.index < s.2 ∧
      stateAt s.1 ep.index ≠ TransactionState.Dropped) →
    ((getMutPruningLoop h s true i res ptx psw pidx).2.2 = 0 ∨
      ∃ ep, h.get? (getMutPruningLoop h s true i res ptx psw pidx).2.2 = some ep
        ∧ ep.index < s.2 ∧ stateAt s.1 ep.index ≠ TransactionState.Dropped) := by
  intro i
  induction i with
  | zero => intro res ptx psw pidx _ hpidx; exact hpidx
  | succ i ih =>
    intro res ptx psw pidx hi hpidx
    have hip : i < h.length := Nat.lt_of_succ_le hi
    obtain ⟨e, he⟩ := exists_get?_of_lt h i hip
    cases hst : stateAt s.1 e.index with
    | Dropped =>
      simp only [getMutPruningLoop, he, hst]
      exact ih res ptx psw pidx (by omega) hpidx
    | TxPending =>
      have hlivebr : stateAt s.1 e.index ≠ TransactionState.Dropped := by
        rw [hst]
        intro hx
        exact TransactionState.noConfusion hx
      have hinv1 : (if e.index < s.2 ∧ pidx < i then i else pidx) = 0 ∨
          ∃ ep, h.get? (if e.index < s.2 ∧ pidx < i then i else pidx) = some ep
            ∧ ep.index < s.2 ∧
            stateAt s.1 ep.index ≠ TransactionState.Dropped := by
        by_cases hpc : e.index < s.2 ∧ pidx < i
        · rw [if_pos hpc]
          exact Or.inr ⟨e, he, hpc.1, hlivebr⟩
        · rw [if_neg hpc]
          exact hpidx
      by_cases hc : e.index < s.2
      · simp only [getMutPruningLoop, he, hst, eq_self_iff_true, if_true,
          if_pos hc]
        exact hinv1
      · simp only [getMutPruningLoop, he, hst, eq_self_iff_true, if_true,
          if_neg hc]
        exact ih _ ptx _ _ (by omega) hinv1
    | Pending =>
      have hlivebr : stateAt s.1 e.index ≠ TransactionState.Dropped := by
        rw [hst]
        intro hx
        exact TransactionState.noConfusion hx
      have hinv1 : (if e.index < s.2 ∧ pidx < i then i else pidx) = 0 ∨
          ∃ ep, h.get? (if e.index < s.2 ∧ pidx < i then i else pidx) = some ep
            ∧ ep.index < s.2 ∧
            stateAt s.1 ep.index ≠ TransactionState.Dropped := by
        by_cases hpc : e.index < s.2 ∧ pidx < i
        · rw [if_pos hpc]
          exact Or.inr ⟨e, he, hpc.1, hlivebr⟩
        · rw [if_neg hpc]
          exact hpidx
      by_cases hg : geInf e.index ptx = true
      · simp only [getMutPruningLoop, he, hst, if_pos hg]
        exact ih res ptx _ _ (by omega) hinv1
      · cases res with
        | none =>
          simp only [getMutPruningLoop, he, hst, if_neg hg,
            if_pos (show (none : Option (Nat × Nat)).isNone = true from rfl)]
          exact ih _ _ psw _ (by omega) hinv1
        | some r =>
          by_cases hc : e.index < s.2
          · simp only [getMutPruningLoop, he, hst, if_neg hg,
              if_neg (show ¬((some r).isNone = true) from by simp),
              eq_self_iff_true, if_true, if_pos hc]
            exact hinv1
          · simp only [getMutPruningLoop, he, hst, if_neg hg,
              if_neg (show ¬((some r).isNone = true) from by simp),
              eq_self_iff_true, if_true, if_neg hc]
            exact ih _ ptx psw _ (by omega) hinv1

theorem get_mut_pruning_true_drop (h : History V)
    (s : List TransactionState × Nat) (hsort : sortedIdx h) :
    ∃ d, (History.get_mut_pruning h s true).2
      = ((History.get_mut h s).2).drop d := by
  by_cases h0 : h.length = 0
  · refine ⟨0, ?_⟩
    unfold History.get_mut_pruning History.get_mut
    rw [if_pos h0, if_pos h0]
    simp
  · rcases hE : getMutPruningLoop h s true h.length none none none 0
      with ⟨res, psw, pidx⟩
    rcases hG : getMutLoop h s h.length none none none with ⟨res2, psw2⟩
    have hlock := getMutPruningLoop_lockstep h s hsort h.length none none none 0
      (le_refl _) (fun _ => ⟨rfl, rfl⟩) (fun a b hab => by cases hab)
    rw [hE, hG] at hlock
    simp only at hlock
    obtain ⟨he1, he2⟩ := hlock
    subst he1
    subst he2
    have hpidx := getMutPruningLoop_pidx h s h.length none none none 0
      (le_refl _) (Or.inl rfl)
    rw [hE] at hpidx
    simp only at hpidx
    cases res with
    | none =>
      refine ⟨0, ?_⟩
      unfold History.get_mut_pruning History.get_mut
      rw [if_neg h0, if_neg h0, hE, hG]
      simp
    | some r =>
      rcases r with ⟨ri, rsi⟩
      cases hfl : firstLiveBelow h s.1 h.length with
      | none =>
        have hx := (getMutLoop_result h s (le_refl _)).1 hfl
        rw [hG] at hx
        injection hx with hx1 hx2
        cases hx1
      | some p =>
        obtain ⟨e, he, hres0⟩ := (getMutLoop_result h s (le_refl _)).2 p hfl
        rw [hG] at hres0
        simp only at hres0
        injection hres0 with hres0
        injection hres0 with hx1 hx2
        subst hx1
        subst hx2
        obtain ⟨hp1, ⟨e2, he2, hlive2⟩, habove⟩ :=
          firstLiveBelow_some h s.1 h.length ri (le_refl _) hfl
        rw [he] at he2
        cases he2
        have hpile : pidx ≤ ri := by
          rcases hpidx with hz | ⟨ep, hep, hepc, heplive⟩
          · omega
          · by_contra hx
            have hplen2 : pidx < h.length := by
              by_contra hy
              rw [List.get?_eq_none.mpr (by omega)] at hep
              cases hep
            exact heplive (habove pidx (by omega) hplen2 ep hep)
        by_cases hp0 : 0 < pidx
        · -- a real prune happens: the final buffer is the drop
          refine ⟨pidx, ?_⟩
          unfold History.get_mut_pruning History.get_mut
          rw [if_neg h0, if_neg h0, hE, hG]
          simp only
          have hdoP : True ∧ 0 < pidx ∧
              ((some (ri, e.index) : Option (Nat × Nat)).isSome = true) :=
            ⟨trivial, hp0, rfl⟩
          rw [if_pos hdoP, if_pos hdoP]
          have hh1G : (if ri + 1 < h.length then h.take (ri + 1) else h)
              = h.take (ri + 1) := by
            by_cases hx : ri + 1 < h.length
            · rw [if_pos hx]
            · rw [if_neg hx, List.take_all_of_le (by omega)]
          have hh1P : (if ri + 1 - pidx < (h.drop pidx).length
                then (h.drop pidx).take (ri + 1 - pidx) else h.drop pidx)
              = (h.drop pidx).take (ri + 1 - pidx) := by
            by_cases hx : ri + 1 - pidx < (h.drop pidx).length
            · rw [if_pos hx]
            · rw [if_neg hx, List.take_all_of_le (Nat.le_of_not_lt hx)]
          rw [hh1G, hh1P]
          have hdropA : (h.drop pidx).take (ri + 1 - pidx)
              = (h.take (ri + 1)).drop pidx := by
            rw [List.take_drop]
            have hx : pidx + (ri + 1 - pidx) = ri + 1 := by omega
            rw [hx]
          rw [hdropA]
          have htk : h.take (ri + 1) = h.take ri ++ [e] := by
            rw [List.take_succ, List.get?_eq_getElem?] at *
            rw [he]
            rfl
          have hlastG : (h.take (ri + 1)).getLast? = some e := by
            rw [htk]
            exact List.getLast?_concat _
          have hlenA : (h.take (ri + 1)).length = ri + 1 := by
            rw [List.length_take]
            omega
          have hlastP : ((h.take (ri + 1)).drop pidx).getLast? = some e := by
            rw [List.getLast?_drop, hlenA, if_neg (by omega)]
            exact hlastG
          cases psw with
          | none =>
            simp only
          | some sw =>
            rcases sw with ⟨si, ssi⟩
            -- facts about the switch position
            have hwf := getMutLoop_wf h s h.length none none none (le_refl _)
              (fun _ => ⟨rfl, rfl⟩) (fun a b hab => by cases hab)
              (fun a b hab => by cases hab)
            rw [hG] at hwf
            obtain ⟨⟨esp, hesp, hespidx, hesplive⟩, ra, rb, hra, hsilt⟩ :=
              hwf.2 si ssi rfl
            injection hra with hra
            injection hra with hy1 hy2
            subst hy1
            subst hy2
            have hstrong := getMutLoop_strong h s h.length none none none
              (le_refl _) (fun _ => ⟨rfl, rfl⟩) (fun st2 hst2 => by cases hst2)
              (fun a b hab => by cases hab) (fun a b hab => by cases hab)
              (fun a b hab => by cases hab) si ssi (by rw [hG])
            rw [hG] at hstrong
            simp only at hstrong
            obtain ⟨ra2, rb2, era2, hres3, hera2, heri2, hpend2, hlt3,
              hstle3, hregion3⟩ := hstrong
            injection hres3 with hres3
            injection hres3 with hz1 hz2
            subst hz1
            subst hz2
            have hssic : s.2 ≤ ssi := by
              have := find_previous_tx_start_ge s e.index
              omega
            have hpidxsi : pidx < si := by
              rcases hpidx with hz | ⟨ep, hep, hepc, heplive⟩
              · omega
              · by_contra hx
                rcases Nat.eq_or_lt_of_le (Nat.le_of_not_lt hx) with hy | hy
                · rw [← hy] at hep
                  rw [hesp] at hep
                  injection hep with hep
                  rw [← hep] at hepc
                  omega
                · have := sortedIdx_get? hsort hy hesp hep
                  omega
            rw [hlastG, hlastP]
            simp only
            have hdlG : (h.take (ri + 1)).dropLast = h.take ri := by
              rw [htk]
              exact List.dropLast_concat
            have hdlP : ((h.take (ri + 1)).drop pidx).dropLast
                = (h.take ri).drop pidx := by
              rw [htk, List.drop_append_of_le_length (by
                rw [List.length_take]; omega), List.dropLast_concat]
            rw [hdlG, hdlP]
            have htksi : ((h.take ri).drop pidx).take (si - pidx)
                = ((h.take ri).take si).drop pidx := by
              rw [List.take_drop]
              have hx : pidx + (si - pidx) = si := by omega
              rw [hx]
            rw [htksi]
            have hlen2 : ((h.take ri).take si).length = si := by
              rw [List.length_take, List.length_take]
              omega
            rw [List.drop_append_of_le_length (by rw [hlen2]; omega)]
        · -- nothing recorded to prune: the two buffers coincide
          refine ⟨0, ?_⟩
          unfold History.get_mut_pruning History.get_mut
          rw [if_neg h0, if_neg h0, hE, hG]
          simp only
          have hdoP : ¬(True ∧ 0 < pidx ∧
              ((some (ri, e.index) : Option (Nat × Nat)).isSome = true)) :=
            fun hx => hp0 hx.2.1
          rw [if_neg hdoP, if_neg hdoP]
          simp only [Nat.sub_zero, List.drop_zero]

theorem amo_drop (s : List TransactionState × Nat) (A : History V) (d : Nat)
    (hamo : atMostOnePerScope s A) : atMostOnePerScope s (A.drop d) := by
  intro b hb a ha ep eq2 hep heq2 hl1 hl2 hopen hsame
  have h1 : A.get? (d + a) = some ep := by
    rw [← List.get?_drop]
    exact hep
  have h2 : A.get? (d + b) = some eq2 := by
    rw [← List.get?_drop]
    exact heq2
  have hblen : d + b < A.length := by
    rw [List.length_drop] at hb
    omega
  exact hamo (d + b) hblen (d + a) (by omega) ep eq2 h1 h2 hl1 hl2 hopen hsame

/-- C5, counterexample to the claim as stated: `set` is not a
compacting bound keeper.  The reachable run
start; set 100; start; commit; set 200 leaves the key's sequence with
two live entries (layers 1 and 3) that both resolve to the still-open
transaction scope anchored at layer 1. -/
theorem claim_C5_counterexample :
    ¬ atMostOnePerScope
      ((applyOps [Op.start, Op.setv 100, Op.start, Op.commit, Op.setv 200]
          (States.start, ([] : History Nat))).1.layers,
        (applyOps [Op.start, Op.setv 100, Op.start, Op.commit, Op.setv 200]
          (States.start, ([] : History Nat))).1.committed)
      (applyOps [Op.start, Op.setv 100, Op.start, Op.commit, Op.setv 200]
        (States.start, ([] : History Nat))).2 := by
  intro hamo
  exact hamo 1 (by decide) 0 (by decide) ⟨100, 1⟩ ⟨200, 3⟩ (by decide)
    (by decide) (by decide) (by decide) (by decide) (by decide)

/-- C5 (amended): the compaction bound holds for the compacting
mutations `get_mut` and `get_mut_pruning` (with either flag value):
on a sequence with strictly increasing layer indices whose live
entries only share a currently-open scope at the top of the live
chain, and a snapshot whose committed layer is not itself a
transaction anchor, the resulting sequence contains at most one live
entry in any single currently-open transaction scope.  `set` does not
keep this bound (see the counterexample): after a `set`, the freshly
appended top entry may share its open scope with the previous top. -/
theorem claim_C5_compaction_bound (V : Type) (h : History V)
    (s : List TransactionState × Nat) (b : Bool)
    (hsort : sortedIdx h) (hcoh : scopeCoherent s h)
    (hcom : stateAt s.1 s.2 ≠ TransactionState.TxPending) :
    atMostOnePerScope s (History.get_mut h s).2 ∧
    atMostOnePerScope s (History.get_mut_pruning h s b).2 := by
  have hmain := get_mut_amo h s hsort hcoh hcom
  refine ⟨hmain, ?_⟩
  cases b with
  | false =>
    rw [get_mut_pruning_false]
    exact hmain
  | true =>
    obtain ⟨d, hd⟩ := get_mut_pruning_true_drop h s hsort
    rw [hd]
    exact amo_drop s _ d hmain

theorem claim_C5_compaction_bound_witness :
    atMostOnePerScope
      (([TransactionState.Pending, TransactionState.TxPending,
          TransactionState.Pending, TransactionState.Pending], 0))
      (History.get_mut [(⟨100, 1⟩ : HistoriedValue Nat), ⟨200, 3⟩]
        ([TransactionState.Pending, TransactionState.TxPending,
          TransactionState.Pending, TransactionState.Pending], 0)).2 ∧
    atMostOnePerScope
      (([TransactionState.Pending, TransactionState.TxPending,
          TransactionState.Pending, TransactionState.Pending], 0))
      (History.get_mut_pruning [(⟨100, 1⟩ : HistoriedValue Nat), ⟨200, 3⟩]
        ([TransactionState.Pending, TransactionState.TxPending,
          TransactionState.Pending, TransactionState.Pending], 0) true).2 :=
  claim_C5_compaction_bound Nat [⟨100, 1⟩, ⟨200, 3⟩]
    ([TransactionState.Pending, TransactionState.TxPending,
      TransactionState.Pending, TransactionState.Pending], 0) true
    (by unfold sortedIdx; decide)
    (by
      intro p q z ep eq2 ez hpq hqz hp hq hz hl1 hl2 hl3 hopen hsame
      exfalso
      have hzlen : z < 2 := by
        by_contra hx
        rw [List.get?_eq_none.mpr (by simp; omega)] at hz
        cases hz
      omega)
    (by decide)
